import Mathlib

/-!
Verification of the CoreLox compiler and virtual machine (a clox-style
single-pass compiler plus stack-based bytecode VM written in C) against its
natural-language specification.

The development shallowly embeds the relevant C code:

* `src/object.c` — string interning (`copyString`, `takeString`,
  `allocateString`, `hashString`);
* the mark-sweep collector (`sweep`, `collectGarbage`) from the memory
  manager translation unit;
* `src/vm.c` — the value stack (`push`), the global-variable opcodes
  (`OP_DEFINE_GLOBAL`, `OP_GET_GLOBAL`, `OP_SET_GLOBAL`), and the
  `OP_MODULO` arithmetic (`roundDouble`, `BINARY_INT_OP`);
* `src/compiler.c` — `makeConstant`, the break-jump list (`patchJumps`,
  `addJump`), the ternary compiler, and the switch compiler;
* `chunk.c` — `addConstant`.

The hash table implementation (`table.c`) is not part of the source
snapshot — only its header `table.h` and its callers are — so the table is
modelled from the specification (section 4.5) and every result that leans
on it says so.

C machine integers are modelled as `Nat`/`Int` with explicit wrap-around
(`% 4294967296` for `uint32_t`, `% 256` for `uint8_t`).  IEEE-754 doubles
are modelled by exact fractions (`CNum`); every concrete input used in a
theorem below is exactly representable as a double and all double
operations applied to it are exact, so the model agrees with the C
program on those inputs.
-/

namespace CoreLox

/-! ## Exact model of the C doubles appearing in the claims

A `CNum` is a fraction `num / den`.  All values manipulated by the
theorems below are exactly representable IEEE-754 doubles and the
operations applied to them (`+ 0.5`, comparison, `(int)` casts) are exact
on them, so the fraction model coincides with the C semantics there.
`den` is positive in every value the development constructs. -/
structure CNum where
  num : Int
  den : Nat
deriving DecidableEq, Repr

/-- Double equality `a == b` on exact values: cross multiplication. -/
def CNum.eqb (a b : CNum) : Bool := a.num * (b.den : Int) == b.num * (a.den : Int)

/-- Double addition on exact values. -/
def CNum.add (a b : CNum) : CNum := ⟨a.num * (b.den : Int) + b.num * (a.den : Int), a.den * b.den⟩

/-- The double constant `0.5`. -/
def CNum.half : CNum := ⟨1, 2⟩

/-- The rational value of an exact double. -/
def CNum.toRat (a : CNum) : ℚ := (a.num : ℚ) / (a.den : ℚ)

/-- A C `(int)` cast of a double: truncation toward zero.  `Int.tdiv` is
truncating division, matching C99 integer conversion of an exact
fraction. -/
def CNum.toCInt (a : CNum) : Int := a.num.tdiv (a.den : Int)

/-! ## Strings and values

`ObjString` reflects `struct ObjString` from `object.h`: length (implicit
in the byte list), cached 32-bit FNV-1a hash, and the bytes.  The `sid`
field stands for the object's heap address: two `ObjString` values denote
the same C object exactly when their `sid`s agree (allocation gives out
fresh `sid`s). -/
structure ObjString where
  sid : Nat
  chars : List Nat
  hash : Nat
deriving DecidableEq, Repr

/-- FNV-1a, translated from `hashString` in `src/object.c`: 32-bit state
starting at 2166136261; each byte is xor-ed in (after the `uint8_t` cast)
and the state is multiplied by 16777619 modulo 2^32. -/
def hashString (chars : List Nat) : Nat :=
  chars.foldl (fun h b => ((h ^^^ b % 256) * 16777619) % 4294967296) 2166136261

/-- Runtime values, from `value.h` (tagged-union representation): nil,
booleans, numbers and object references.  The only object kinds the
verified fragments put into a `Value` are strings and functions; like
`ObjString.sid`, the `oid` of a function object stands for its heap
address. -/
inductive Value where
  | nil : Value
  | vbool (b : Bool) : Value
  | num (v : CNum) : Value
  | str (s : ObjString) : Value
  | fn (oid : Nat) (arity : Nat) (code : List Nat) (constants : List Value)
      (name : Option ObjString) : Value

/-- Modelled from the spec (section 3); `value.c` is absent from the
snapshot.  Two values are equal iff they have the same tag and (nil-nil,
bool-bool, number-number as doubles, objects by identity).  Object
identity is address equality, i.e. `sid`/`oid` equality here. -/
def valuesEqual : Value → Value → Bool
  | .nil, .nil => true
  | .vbool a, .vbool b => a == b
  | .num a, .num b => a.eqb b
  | .str a, .str b => a.sid == b.sid
  | .fn o _ _ _ _, .fn o2 _ _ _ _ => o == o2
  | _, _ => false

/-! ## The hash table

Modelled from the spec: `table.c` is absent from the source snapshot
(only `table.h` and the callers are present).  Spec section 4.5: an
open-addressed, linear-probed table of `(ObjString*, Value)` entries with
tombstones, load-factor resize at 0.75 (double capacity, minimum 8);
deletion stores a tombstone (`key = NULL`, `value = true`) to preserve
probe chains; `count` counts live entries and tombstones alike; the
intern table is searched by raw bytes+hash (`tableFindString`), all other
tables by interned-string identity.

A slot is empty (`key = NULL`, `value = nil`), a tombstone (`key = NULL`,
`value = true`), or live. -/
inductive Slot where
  | empty : Slot
  | tomb : Slot
  | live (k : ObjString) (v : Value) : Slot

/-- Is the slot occupied or a tombstone (anything but empty)? -/
def Slot.nonEmpty : Slot → Bool
  | .empty => false
  | _ => true

/-- Does the slot hold the live key `k`? -/
def Slot.holds (s : Slot) (k : ObjString) : Prop := ∃ v, s = Slot.live k v

instance (s : Slot) (k : ObjString) : Decidable (s.holds k) := by
  unfold Slot.holds
  cases s with
  | empty => exact .isFalse (by intro ⟨v, hv⟩; cases hv)
  | tomb => exact .isFalse (by intro ⟨v, hv⟩; cases hv)
  | live k2 v2 =>
      by_cases h : k2 = k
      · exact .isTrue ⟨v2, by rw [h]⟩
      · exact .isFalse (by intro ⟨v, hv⟩; cases hv; exact h rfl)

/-- The table: `count` (live + tombstones) and the entry array
(capacity = `entries.length`). -/
structure Table where
  count : Nat
  entries : List Slot

/-- `initTable`: zero count, zero capacity, no storage. -/
def initTable : Table := ⟨0, []⟩

/-- Capacity growth policy from `memory.h`:
`GROW_CAPACITY(c) = c < 8 ? 8 : c * 2`. -/
def growCapacity (c : Nat) : Nat := if c < 8 then 8 else c * 2

/-- One probing scan, following clox `findEntry`: starting from the hash
bucket, skip tombstones (remembering the first one) and non-matching live
keys; stop at the key or at the first truly empty slot (returning the
remembered tombstone, if any, in that case).  The C loop has no bound;
fuel `entries.length` is enough whenever some slot is empty, and the
well-formedness predicate below guarantees that.  The result is the slot
index together with whether the key itself was found. -/
def findEntryGo (es : List Slot) (k : ObjString) : Nat → Nat → Option Nat → Option (Nat × Bool)
  | 0, _, _ => none
  | fuel+1, idx, tombIdx =>
    match es.getD idx .empty with
    | .empty => some (tombIdx.getD idx, false)
    | .tomb => findEntryGo es k fuel ((idx + 1) % es.length) (some (tombIdx.getD idx))
    | .live k2 _ =>
      if k2 = k then some (idx, true)
      else findEntryGo es k fuel ((idx + 1) % es.length) tombIdx

/-- `findEntry` over a table's entry array. -/
def findEntry (es : List Slot) (k : ObjString) : Option (Nat × Bool) :=
  if es.length = 0 then none
  else findEntryGo es k es.length (k.hash % es.length) none

/-- `tableGet`: absent on an empty table; otherwise a probe, failing on a
slot without a key. -/
def tableGet (t : Table) (k : ObjString) : Option Value :=
  if t.count = 0 then none
  else
    match findEntry t.entries k with
    | some (i, true) =>
      match t.entries.getD i .empty with
      | .live _ v => some v
      | _ => none
    | _ => none

/-- The write performed by `tableSet` once the probe has picked a slot:
store the pair, bump `count` only when the slot was truly empty (a reused
tombstone is already counted).  Returns the updated table and the
`isNewKey` flag (`entry->key == NULL`). -/
def tableSetRaw (t : Table) (k : ObjString) (v : Value) : Table × Bool :=
  match findEntry t.entries k with
  | some (i, found) =>
    let isNew := !found
    let cnt := if isNew && !(t.entries.getD i .empty).nonEmpty then t.count + 1 else t.count
    (⟨cnt, t.entries.set i (.live k v)⟩, isNew)
  | none => (t, false)

/-- `adjustCapacity`: allocate a fresh empty array of the new capacity and
re-insert every live entry, dropping tombstones; `count` is recomputed as
the number of live entries. -/
def adjustCapacity (t : Table) (newCap : Nat) : Table :=
  t.entries.foldl
    (fun acc s =>
      match s with
      | .live k v => (tableSetRaw acc k v).1
      | _ => acc)
    ⟨0, List.replicate newCap .empty⟩

/-- `tableSet`: grow at load factor 0.75 (the capacities are multiples of
four, so `3 * capacity / 4` is the exact C threshold), then place the
pair. -/
def tableSet (t : Table) (k : ObjString) (v : Value) : Table × Bool :=
  let t := if t.count + 1 > t.entries.length * 3 / 4
           then adjustCapacity t (growCapacity t.entries.length) else t
  tableSetRaw t k v

/-- `tableDelete`: tombstone the key's slot, leaving `count` unchanged. -/
def tableDelete (t : Table) (k : ObjString) : Table × Bool :=
  if t.count = 0 then (t, false)
  else
    match findEntry t.entries k with
    | some (i, true) => (⟨t.count, t.entries.set i .tomb⟩, true)
    | _ => (t, false)

/-- The scan of `tableFindString`: like `findEntry` but comparing the
stored key's length, cached hash and bytes against the query, and
returning `NULL` at the first empty slot (tombstones are only skipped). -/
def findStringGo (es : List Slot) (chars : List Nat) (h : Nat) : Nat → Nat → Option ObjString
  | 0, _ => none
  | fuel+1, idx =>
    match es.getD idx .empty with
    | .empty => none
    | .tomb => findStringGo es chars h fuel ((idx + 1) % es.length)
    | .live k _ =>
      if k.chars.length = chars.length ∧ k.hash = h ∧ k.chars = chars then some k
      else findStringGo es chars h fuel ((idx + 1) % es.length)

/-- `tableFindString`: byte-wise lookup used by the intern table. -/
def tableFindString (t : Table) (chars : List Nat) (h : Nat) : Option ObjString :=
  if t.count = 0 then none
  else if t.entries.length = 0 then none
  else findStringGo t.entries chars h t.entries.length (h % t.entries.length)

/-! ## Well-formedness of a table

The invariants the C code maintains: `count` equals the number of
non-empty slots; there is always a truly empty slot (load is kept at or
below 0.75 < 1); every live key sits at the end of an unbroken non-empty
probe run starting at its hash bucket; and no key occupies two slots. -/

/-- Number of non-empty (live or tombstone) slots. -/
def countNonEmpty (es : List Slot) : Nat := es.countP (fun s => s.nonEmpty)

/-- Is the slot live? -/
def Slot.isLive : Slot → Bool
  | .live _ _ => true
  | _ => false

/-- Number of live slots. -/
def liveCount (es : List Slot) : Nat := es.countP (fun s => s.isLive)

/-- The probe-run invariant for a single live slot: slot `i` holding key
`k` is reachable from `k`'s hash bucket through non-empty slots. -/
def probeOk (es : List Slot) (i : Nat) (k : ObjString) : Prop :=
  ∃ d < es.length, i = (k.hash % es.length + d) % es.length ∧
    ∀ j < d, (es.getD ((k.hash % es.length + j) % es.length) .empty).nonEmpty

/-- Property of the key of a slot, vacuously true for keyless slots. -/
def slotKeyProp (s : Slot) (P : ObjString → Prop) : Prop :=
  match s with
  | .live k _ => P k
  | _ => True

instance (s : Slot) (P : ObjString → Prop) [∀ k, Decidable (P k)] :
    Decidable (slotKeyProp s P) := by
  unfold slotKeyProp
  cases s <;> infer_instance

/-- Every live slot lies at the end of a non-empty probe run from its
key's bucket. -/
def probeInvariant (es : List Slot) : Prop :=
  ∀ i < es.length, slotKeyProp (es.getD i .empty) (fun k => probeOk es i k)

/-- No key occupies two distinct slots. -/
def uniqKeys (es : List Slot) : Prop :=
  ∀ i < es.length, ∀ j < es.length,
    slotKeyProp (es.getD i .empty) (fun k => (es.getD j .empty).holds k → i = j)

/-- A well-formed table: either the capacity-zero initial table, or a
table with a correct count, spare empty slot, probe runs and unique
keys. -/
def wfTable (t : Table) : Prop :=
  (t.entries.length = 0 ∧ t.count = 0) ∨
  (0 < t.entries.length ∧
   t.count = countNonEmpty t.entries ∧
   t.count < t.entries.length ∧
   probeInvariant t.entries ∧
   uniqKeys t.entries)

instance (t : Table) : Decidable (wfTable t) := by
  unfold wfTable probeInvariant uniqKeys probeOk
  infer_instance

/-- The value a single slot contributes for key `k`. -/
def slotMatchVal (s : Slot) (k : ObjString) : Option Value :=
  match s with
  | .live k2 v => if k2 = k then some v else none
  | _ => none

/-- The live contents of a table, read off slot by slot: the reference
point for specifying `tableGet`/`tableSet`/`tableDelete`. -/
def liveLookup (es : List Slot) (k : ObjString) : Option Value :=
  es.findSome? (fun s => slotMatchVal s k)

/-- Is some slot of the array a live occurrence of `k`? -/
def keyPresent (es : List Slot) (k : ObjString) : Prop :=
  ∃ i < es.length, (es.getD i .empty).holds k

instance (es : List Slot) (k : ObjString) : Decidable (keyPresent es k) := by
  unfold keyPresent
  infer_instance

/-! ## String interning (`src/object.c`)

The intern state: the weak table `vm.strings`, the next fresh heap
address for a string object, and the set of live heap character buffers
(used to model `FREE_ARRAY` in `takeString`). -/
structure Intern where
  strings : Table
  nextSid : Nat
  liveBufs : List Nat

/-- `allocateString` from `src/object.c`: make a string object owning a
copy of the bytes, insert it into `vm.strings` (the push/pop pair around
`tableSet` is GC rooting, which has no effect in this model), and return
it.  The fresh `sid` models the fresh allocation address. -/
def allocateString (chars : List Nat) (h : Nat) (st : Intern) : ObjString × Intern :=
  let s : ObjString := ⟨st.nextSid, chars, h⟩
  (s, { st with strings := (tableSet st.strings s Value.nil).1, nextSid := st.nextSid + 1 })

/-- `copyString` from `src/object.c`: hash the bytes, return the interned
string when one with the same bytes exists, otherwise copy the bytes to a
fresh buffer (the transient `heapChars` buffer is not tracked) and
allocate. -/
def copyString (chars : List Nat) (st : Intern) : ObjString × Intern :=
  let h := hashString chars
  match tableFindString st.strings chars h with
  | some interned => (interned, st)
  | none => allocateString chars h st

/-- `takeString` from `src/object.c`: like `copyString` but takes
ownership of the caller's buffer `bufId`; when an interned string with the
same bytes exists the buffer is freed (`FREE_ARRAY`) and the interned
string returned. -/
def takeString (bufId : Nat) (chars : List Nat) (st : Intern) : ObjString × Intern :=
  let h := hashString chars
  match tableFindString st.strings chars h with
  | some interned =>
    (interned, { st with liveBufs := st.liveBufs.erase bufId })
  | none => allocateString chars h st

/-- Well-formed intern state: the table is well-formed, every stored
string caches its own FNV-1a hash and has an address below the
allocation cursor, and no two distinct slots hold strings with equal
bytes. -/
def wfIntern (st : Intern) : Prop :=
  wfTable st.strings ∧
  (∀ i < st.strings.entries.length,
    slotKeyProp (st.strings.entries.getD i .empty)
      (fun k => k.hash = hashString k.chars ∧ k.sid < st.nextSid)) ∧
  (∀ i < st.strings.entries.length, ∀ j < st.strings.entries.length,
    slotKeyProp (st.strings.entries.getD i .empty)
      (fun k => slotKeyProp (st.strings.entries.getD j .empty)
        (fun k2 => k.chars = k2.chars → k = k2)))

instance (st : Intern) : Decidable (wfIntern st) := by
  unfold wfIntern
  refine @instDecidableAnd _ _ ?_ (@instDecidableAnd _ _ ?_ ?_) <;> infer_instance

/-- Does the slot hold a live string with exactly these bytes? -/
def Slot.holdsBytes (s : Slot) (chars : List Nat) : Prop :=
  match s with
  | .live k _ => k.chars = chars
  | _ => False

instance (s : Slot) (chars : List Nat) : Decidable (s.holdsBytes chars) := by
  unfold Slot.holdsBytes
  cases s <;> infer_instance

/-- Is a string with exactly these bytes interned? -/
def bytesInterned (st : Intern) (chars : List Nat) : Prop :=
  ∃ i < st.strings.entries.length,
    (st.strings.entries.getD i .empty).holdsBytes chars

instance (st : Intern) (chars : List Nat) : Decidable (bytesInterned st chars) := by
  unfold bytesInterned
  infer_instance

/-! ## The mark-sweep collector (claim C2)

Translated from the memory-manager translation unit containing `sweep`
and `collectGarbage` (`src/unnamed/part_004`).  An object is its heap
address, kind and mark bit; the allocation list is a Lean list. -/
inductive ObjKind where
  | string | native | function | closure | upvalue | klass | inst
deriving DecidableEq, Repr

structure HObj where
  oid : Nat
  kind : ObjKind
  marked : Bool
deriving DecidableEq, Repr

/-- The per-survivor flag update inside `sweep`:
`if (!(object->type == OBJ_STRING || object->type == OBJ_NATIVE)) object->isMarked = false;`
so strings and natives keep their mark bit. -/
def sweepClear (o : HObj) : HObj :=
  if o.kind = .string ∨ o.kind = .native then o else { o with marked := false }

/-- `sweep`: walk the allocation list; marked objects survive (with the
flag update above), unmarked objects are unlinked and freed.  Returns
(surviving list, freed objects), both in list order. -/
def sweep : List HObj → List HObj × List HObj
  | [] => ([], [])
  | o :: rest =>
    let r := sweep rest
    if o.marked then (sweepClear o :: r.1, r.2) else (r.1, o :: r.2)

/-- Modelled from the spec: `tableRemoveWhite` (in the absent `table.c`)
removes from the intern table every string whose mark bit is false.  The
intern table is abstracted to the list of its string members here; the
mark bits live on the allocation list. -/
def tableRemoveWhite (objs : List HObj) (strs : List Nat) : List Nat :=
  strs.filter (fun oid => ((objs.find? (fun o => o.oid = oid)).map (fun o => o.marked)).getD false)

/-- The tail of `collectGarbage` after `markRoots`/`traceReferences` have
set the mark bits (the inputs carry those bits): first the weak intern
table is swept, then the allocation list.  Returns the intern table, the
surviving allocation list, and the freed objects. -/
def gcFinish (strs : List Nat) (objs : List HObj) : List Nat × List HObj × List HObj :=
  (tableRemoveWhite objs strs, sweep objs)

/-! ## The value stack and `push` (claim C3)

`push` from `src/vm.c` (lines 76-89).  The C stack is a heap array that
`GROW_ARRAY`/`realloc` may relocate; a relocation is modelled by bumping
`stackEpoch` (the identity of the current allocation), controlled by the
`moved` flag since `realloc` may or may not move the block.  A pointer
into the stack is an epoch plus an offset; it is dangling when its epoch
is not the stack's current epoch. -/
structure StackPtr where
  epoch : Nat
  offset : Nat
deriving DecidableEq, Repr

structure VmStack where
  stackEpoch : Nat
  stackCapacity : Nat
  stackLen : Nat
  frameSlots : List StackPtr
deriving DecidableEq, Repr

/-- `push`: on overflow grow the capacity, reallocate (possibly moving
the array) and recompute `stackTop` (`vm.stackTop = vm.stack +
oldCapacity`); then store the value and bump `stackTop`.  Frame `slots`
pointers and upvalue `location` pointers are not touched — exactly as in
the source. -/
def push (moved : Bool) (s : VmStack) : VmStack :=
  if s.stackLen ≥ s.stackCapacity then
    { s with
      stackCapacity := growCapacity s.stackCapacity,
      stackEpoch := if moved then s.stackEpoch + 1 else s.stackEpoch,
      stackLen := s.stackCapacity + 1 }
  else
    { s with stackLen := s.stackLen + 1 }

/-- Every frame's `slots` pointer points into the current stack
allocation. -/
def framesValid (s : VmStack) : Prop :=
  ∀ p ∈ s.frameSlots, p.epoch = s.stackEpoch

instance (s : VmStack) : Decidable (framesValid s) := by
  unfold framesValid
  infer_instance

/-! ## `OP_MODULO` (claim C4)

From `src/vm.c`: `roundDouble(v) = (int)(v + 0.5)` and
`BINARY_INT_OP(%)`: both operands must be numbers, both are rounded, and
the C `%` (truncated remainder, `Int.tmod`) of the rounded values is
pushed as a double. -/
def roundDouble (v : CNum) : Int := (v.add CNum.half).toCInt

/-- The effect of `OP_MODULO` on the two topmost stack values (`a` below
`b`): `none` models the "Operands must be numbers." runtime error. -/
def opModulo : Value → Value → Option Value
  | .num a, .num b => some (.num ⟨(roundDouble a).tmod (roundDouble b), 1⟩)
  | _, _ => none

/-- The rounding the specification describes: `floor(x + 0.5)`. -/
noncomputable def floorRound (q : ℚ) : Int := ⌊q + 1/2⌋

/-! ## The break-jump list (claim C5)

`Jump`/`addJump` from `jump_list.c` (`src/unnamed/part_005`) and
`patchJumps` from `src/compiler.c` (lines 483-497). -/
structure Jump where
  offset : Nat
  depth : Nat
deriving DecidableEq, Repr

/-- `addJump(list, depth, offset)` appends `{offset, depth}`. -/
def addJump (list : List Jump) (depth offset : Nat) : List Jump :=
  list ++ [⟨offset, depth⟩]

/-- The two-byte big-endian patch `code[offset] = (jump >> 8) & 0xff;
code[offset+1] = jump & 0xff` where `jump = target - offset - 2`.  In
every use below `target ≥ offset + 2`, so the `Nat` subtraction agrees
with the C `int` arithmetic. -/
def writeJumpAt (code : List Nat) (offset target : Nat) : List Nat :=
  ((code.set offset (((target - offset - 2) >>> 8) &&& 255)).set (offset + 1)
    ((target - offset - 2) &&& 255))

/-- The loop body of `patchJumps`: iterate `i = count-1 .. 0`, i.e. over
the reversed list, and `break` at the first entry whose depth differs. -/
def patchJumpsGo (target depth : Nat) : List Jump → List Nat → List Nat
  | [], code => code
  | j :: rest, code =>
    if j.depth ≠ depth then code
    else patchJumpsGo target depth rest (writeJumpAt code j.offset target)

/-- `patchJumps(list, depth, target)` from `src/compiler.c`: patch the
entries of the list from the end backwards, stopping at the first depth
mismatch.  Entries are never removed.  (The `error` call for jumps over
65535 bytes only sets a flag and does not stop the write; all inputs
below stay far below that bound.) -/
def patchJumps (code : List Nat) (list : List Jump) (depth target : Nat) : List Nat :=
  patchJumpsGo target depth list.reverse code

/-- The conclusion bundle of `tableSetRaw_spec`, shared with the rehash
lemma: the write keeps the structural invariants, updates exactly `k`,
and reports whether `k` was new. -/
def setRawPost (t : Table) (k : ObjString) (v : Value) : Prop :=
  (tableSetRaw t k v).1.entries.length = t.entries.length ∧
  (tableSetRaw t k v).1.count = countNonEmpty (tableSetRaw t k v).1.entries ∧
  (tableSetRaw t k v).1.count ≤ t.count + 1 ∧
  probeInvariant (tableSetRaw t k v).1.entries ∧
  uniqKeys (tableSetRaw t k v).1.entries ∧
  liveLookup (tableSetRaw t k v).1.entries k = some v ∧
  (∀ m, m ≠ k → liveLookup (tableSetRaw t k v).1.entries m = liveLookup t.entries m) ∧
  ((tableSetRaw t k v).2 = true ↔ ¬ keyPresent t.entries k)

/-! ## Opcode bytes

The full `OpCode` enum of the current `chunk.h` is absent from the
snapshot (the `include/chunk.h` present is an older revision listing only
eight opcodes), so the numbering below is modelled: the values are
arbitrary but distinct, and the compiler model and the VM model share
them, which is all the enum provides. -/
def OP_CONSTANT : Nat := 0
def OP_CONSTANT_LONG : Nat := 1
def OP_NIL : Nat := 2
def OP_TRUE : Nat := 3
def OP_FALSE : Nat := 4
def OP_POP : Nat := 5
def OP_DUP : Nat := 6
def OP_EQUAL : Nat := 7
def OP_PRINT : Nat := 8
def OP_JUMP : Nat := 9
def OP_JUMP_IF_FALSE : Nat := 10
def OP_LOOP : Nat := 11
def OP_DEFINE_GLOBAL : Nat := 12
def OP_GET_GLOBAL : Nat := 13
def OP_SET_GLOBAL : Nat := 14
def OP_RETURN : Nat := 15

/-! ## The ternary compiler (claim C6)

`ternary` from `src/compiler.c` (lines 1095-1111) performs, in order:
emit `OP_JUMP_IF_FALSE` (3 bytes), emit `OP_POP`, parse the true branch
at `PREC_TERNARY`, consume the colon, emit `OP_JUMP` (3 bytes), patch the
first jump, emit `OP_POP`, parse the else branch at `PREC_ASSIGNMENT`,
patch the second jump.  The `CompAction` trace records that sequence;
`ternarySpecActions` is the sequence the specification sentence
describes, for comparison. -/
inductive CompAction where
  | emitJumpIfFalse
  | emitByte (op : Nat)
  | parseAt (prec : Nat)
  | consumeColon
  | emitJumpA
  | patchFirst
  | patchSecond
deriving DecidableEq, Repr

/-- Precedence ladder from `compiler.h` (`src/unnamed/part_006`):
NONE < ASSIGNMENT < TERNARY < OR < AND < EQUALITY < COMPARISON < TERM
< FACTOR < UNARY < CALL < PRIMARY. -/
def PREC_NONE : Nat := 0
def PREC_ASSIGNMENT : Nat := 1
def PREC_TERNARY : Nat := 2
def PREC_OR : Nat := 3
def PREC_AND : Nat := 4
def PREC_EQUALITY : Nat := 5
def PREC_COMPARISON : Nat := 6
def PREC_TERM : Nat := 7
def PREC_FACTOR : Nat := 8
def PREC_UNARY : Nat := 9
def PREC_CALL : Nat := 10
def PREC_PRIMARY : Nat := 11

/-- Placeholder byte of the opcode argument does not matter for the
trace; only the order and the parse precedences do.  Translated from the
body of `ternary`. -/
def ternaryActions : List CompAction :=
  [ .emitJumpIfFalse, .emitByte OP_POP, .parseAt PREC_TERNARY, .consumeColon,
    .emitJumpA, .patchFirst, .emitByte OP_POP, .parseAt PREC_ASSIGNMENT, .patchSecond ]

/-- The sequence claimed by the specification: "jump-if-false to e, pop,
parse `t` at assignment precedence, jump past, patch, pop, parse `e` at
ternary precedence". -/
def ternarySpecActions : List CompAction :=
  [ .emitJumpIfFalse, .emitByte OP_POP, .parseAt PREC_ASSIGNMENT, .consumeColon,
    .emitJumpA, .patchFirst, .emitByte OP_POP, .parseAt PREC_TERNARY, .patchSecond ]

/-! ## `addConstant` and `makeConstant` (claim C9)

`addConstant` from `chunk.c` (`src/unnamed/part_014`, lines 66-69)
appends to the constant pool and returns the new index; `makeConstant`
from `src/compiler.c` (line 465) casts that index to `uint8_t` with no
range check. -/
def addConstant (constants : List Value) (v : Value) : List Value × Nat :=
  (constants ++ [v], constants.length)

/-- `makeConstant(value) = (uint8_t)addConstant(currentChunk(), value)`. -/
def makeConstant (constants : List Value) (v : Value) : List Value × Nat :=
  let r := addConstant constants v
  (r.1, r.2 % 256)

/-! ## The global-variable opcodes (claim C8)

From the `run` loop of `src/vm.c`: `OP_DEFINE_GLOBAL` does
`tableSet(&vm.globals, name, peek(0)); pop();` unconditionally;
`OP_GET_GLOBAL` does `tableGet` and raises a runtime error exactly when
it fails; `OP_SET_GLOBAL` does `tableSet(&vm.globals, name, peek(0))`
and, when that reports a new key, `tableDelete`s it again and raises the
"Undefined variable" runtime error (the value is left on the stack in
both cases). -/
def opDefineGlobal (globals : Table) (name : ObjString) (top : Value) : Table :=
  (tableSet globals name top).1

/-- `OP_GET_GLOBAL`: `some` pushed value, or `none` for the runtime
error. -/
def opGetGlobal (globals : Table) (name : ObjString) : Option Value :=
  tableGet globals name

/-- `OP_SET_GLOBAL`: the resulting globals table and `true` for success,
`false` for the "Undefined variable" runtime error (after the
`tableDelete` rollback). -/
def opSetGlobal (globals : Table) (name : ObjString) (top : Value) : Table × Bool :=
  let r := tableSet globals name top
  if r.2 then ((tableDelete r.1 name).1, false) else (r.1, true)

/-! ## A compiler and VM fragment (claims C6 and C7)

Claim C7 is about one concrete source program, so the fragment of the
pipeline that program exercises is embedded: the relevant statement
compilers from `src/compiler.c` (`varDeclaration`, `printStatement`,
`expressionStatement`, `switchStatement`/`switchCase`/`defaultCase`,
`parsePrecedence` with the `number`, `string`, `variable`, `grouping`
prefix rules and the `ternary` infix rule), and the interpreter loop of
`src/vm.c` for the opcodes that code uses.  Statement kinds and infix
rules the modelled programs cannot reach (`if`, `while`, calls, locals,
arithmetic, ...) are left out: on them the model returns `none`.
`error()` in the C compiler sets `hadError`, which makes `compile`
return `NULL`; the model collapses that to `none` at the point of the
error.

The scanner (`scanner.c`) is absent from the snapshot, so programs enter
the model as token lists (modelled from the spec's lexical grammar,
section "Lexical"); a byte list carries an identifier or string payload.
-/
inductive Tok where
  | tvar
  | ident (name : List Nat)
  | teq
  | num (n : Nat)
  | semi
  | tswitch
  | lparen
  | rparen
  | lbrace
  | rbrace
  | tcase
  | colon
  | tprint
  | str (s : List Nat)
  | tfall
  | tdefault
  | question
  | teof
deriving DecidableEq, Repr

/-- Compiler state: the remaining tokens (for `parser.current` and
`advance`), the chunk (`code` and `constants`), the intern table
(`copyString` interns identifier and string literals), and the compiler
fields the fragment uses: `fallthroughMode`/`fallJump` (file-scope
globals of `compiler.c`), `currentLoopDepth`, and the local `caseJumps`
list of the switch statement currently being compiled (saved and
restored around a nested switch, as a C local would be). -/
structure Comp where
  toks : List Tok
  code : List Nat
  constants : List Value
  intern : Intern
  fallMode : Bool
  fallJump : Nat
  loopDepth : Nat
  caseJumps : List Jump

/-- `writeChunk` for one byte (line bookkeeping elided). -/
def Comp.emit (c : Comp) (b : Nat) : Comp := { c with code := c.code ++ [b] }

/-- `parser.current`; past the end of the list the scanner yields
`TOKEN_EOF` forever. -/
def Comp.peekTok (c : Comp) : Tok := c.toks.headD .teof

/-- `advance()` (error tokens do not occur in the modelled inputs). -/
def Comp.advance (c : Comp) : Comp := { c with toks := c.toks.tail }

/-- `consume(type, msg)`: advance on the expected token, error
otherwise. -/
def Comp.consume (c : Comp) (t : Tok) : Option Comp :=
  if c.peekTok = t then some c.advance else none

/-- `emitJump(instruction)`: the opcode and a two-byte `0xffff`
placeholder; returns the placeholder's offset. -/
def Comp.emitJump (c : Comp) (instr : Nat) : Nat × Comp :=
  let c2 := ((c.emit instr).emit 255).emit 255
  (c2.code.length - 2, c2)

/-- `patchJump(offset)`: back-patch the placeholder to jump to the
current end of the chunk. -/
def Comp.patchJump (c : Comp) (offset : Nat) : Comp :=
  { c with code := writeJumpAt c.code offset c.code.length }

/-- `makeConstant` threading the chunk. -/
def Comp.makeConst (c : Comp) (v : Value) : Nat × Comp :=
  let r := makeConstant c.constants v
  (r.2, { c with constants := r.1 })

/-- `emitConstant(value) = writeConstant(currentChunk(), value, line)`
from `chunk.c`: `OP_CONSTANT` with a one-byte index when the new index
is below 256, else `OP_CONSTANT_LONG` with a three-byte big-endian
index. -/
def Comp.writeConst (c : Comp) (v : Value) : Comp :=
  let r := addConstant c.constants v
  let c2 := { c with constants := r.1 }
  if r.2 < 256 then (c2.emit OP_CONSTANT).emit r.2
  else (((c2.emit OP_CONSTANT_LONG).emit ((r.2 >>> 16) % 256)).emit
    ((r.2 >>> 8) % 256)).emit (r.2 % 256)

/-- `identifierConstant(&name) = makeConstant(OBJ_VAL(copyString(...)))`. -/
def Comp.identConst (c : Comp) (name : List Nat) : Nat × Comp :=
  let r := copyString name c.intern
  Comp.makeConst { c with intern := r.2 } (Value.str r.1)

/-- `rules[].precedence` for the modelled tokens: `TOKEN_QUESTION` is
`{NULL, ternary, PREC_TERNARY}` and `TOKEN_LEFT_PAREN` is
`{grouping, call, PREC_CALL}`; every other modelled token type has
`PREC_NONE` there (`TOKEN_EQUAL` included). -/
def infixPrec : Tok → Nat
  | .question => PREC_TERNARY
  | .lparen => PREC_CALL
  | _ => PREC_NONE

/-- The mutually recursive compiler entry points, fused into one fueled
function: the top-level declaration loop of `compile()`, `statement()`,
the case loop of `switchStatement`, the body loops of `switchCase` and
`defaultCase`, `parsePrecedence`, and its trailing infix loop. -/
inductive Job where
  | decls
  | stmt
  | caseLoop
  | caseBody
  | defaultBody
  | expr (prec : Nat)
  | infixLoop (prec : Nat) (canAssign : Bool)
deriving DecidableEq, Repr

/-- One fueled compiler for all the entry points; each C function is one
`Job` arm, commented with its name.  All loops of the C code recurse on
smaller fuel; the modelled programs compile within fuel 100. -/
def runComp : Nat → Job → Comp → Option Comp
  | 0, _, _ => none
  | fuel + 1, job, c =>
    match job with
    | .decls =>
      -- compile(): while (!match(TOKEN_EOF)) declaration();
      if c.peekTok = .teof then some c.advance
      else
        (if c.peekTok = .tvar then
          -- declaration(): match(TOKEN_VAR) then varDeclaration()
          let c1 := c.advance
          match c1.peekTok with
          | .ident name =>
            -- parseVariable: consume IDENTIFIER; declareVariable is a
            -- no-op at scopeDepth 0; identifierConstant
            let r := Comp.identConst c1.advance name
            (if r.2.peekTok = .teq then
              runComp fuel (.expr PREC_ASSIGNMENT) r.2.advance
            else some (r.2.emit OP_NIL)) >>= fun c2 =>
            (c2.consume .semi).map fun c3 =>
            -- defineVariable(global) at scopeDepth 0
            (c3.emit OP_DEFINE_GLOBAL).emit r.1
          | _ => none
        else runComp fuel .stmt c) >>= fun c4 => runComp fuel .decls c4
    | .stmt =>
      match c.peekTok with
      | .tprint =>
        -- printStatement(): expression; ';'; OP_PRINT
        runComp fuel (.expr PREC_ASSIGNMENT) c.advance >>= fun c1 =>
        (c1.consume .semi).map fun c2 => c2.emit OP_PRINT
      | .tswitch =>
        -- switchStatement()
        (c.advance.consume .lparen) >>= fun c1 =>
        runComp fuel (.expr PREC_ASSIGNMENT) c1 >>= fun c2 =>
        (c2.consume .rparen) >>= fun c3 =>
        (c3.consume .lbrace) >>= fun c4 =>
        let saved := c4.caseJumps
        runComp fuel .caseLoop { c4 with caseJumps := [] } >>= fun c5 =>
        (if c5.peekTok = .tdefault then
          -- match(TOKEN_DEFAULT) then defaultCase()
          (c5.advance.consume .colon) >>= fun c6 =>
          let c7 := if c6.fallMode then
              { (c6.patchJump c6.fallJump) with fallMode := false }
            else c6
          runComp fuel .defaultBody c7
        else some c5) >>= fun c8 =>
        let c9 := { c8 with
          code := patchJumps c8.code c8.caseJumps c8.loopDepth c8.code.length
          caseJumps := saved }
        ((c9.emit OP_POP).consume .rbrace)
      | _ =>
        -- expressionStatement() (the other statement kinds are not
        -- modelled; their keyword tokens do not occur)
        runComp fuel (.expr PREC_ASSIGNMENT) c >>= fun c1 =>
        (c1.consume .semi).map fun c2 => c2.emit OP_POP
    | .caseLoop =>
      -- while (check(TOKEN_CASE)) { caseEndJump = switchCase(); ... }
      if c.peekTok = .tcase then
        -- switchCase()
        let c1 := c.advance.emit OP_DUP
        runComp fuel (.expr PREC_ASSIGNMENT) c1 >>= fun c2 =>
        (c2.consume .colon) >>= fun c3 =>
        let c4 := c3.emit OP_EQUAL
        let r := c4.emitJump OP_JUMP_IF_FALSE
        let c5 := r.2.emit OP_POP
        let c6 := if c5.fallMode then
            { (c5.patchJump c5.fallJump) with fallMode := false }
          else c5
        runComp fuel .caseBody c6 >>= fun c7 =>
        (if c7.peekTok = .tfall then
          -- consume 'fallthrough'; record fallJump; patch; pop
          let c8 := { c7.advance with fallMode := true }
          let r2 := c8.emitJump OP_JUMP
          let c9 := { r2.2 with fallJump := r2.1 }
          some ((c9.patchJump r.1).emit OP_POP)
        else
          -- caseEndJump path: recorded by the caller via addJump
          let r2 := c7.emitJump OP_JUMP
          let c8 := (r2.2.patchJump r.1).emit OP_POP
          some { c8 with
                 fallMode := false
                 caseJumps := addJump c8.caseJumps c8.loopDepth r2.1 }) >>=
        fun c10 => runComp fuel .caseLoop c10
      else some c
    | .caseBody =>
      -- while (!check CASE && !check DEFAULT && !check '}' && !check
      -- FALLTHROUGH) statement();
      if c.peekTok = .tcase ∨ c.peekTok = .tdefault ∨ c.peekTok = .rbrace
          ∨ c.peekTok = .tfall then some c
      else runComp fuel .stmt c >>= fun c1 => runComp fuel .caseBody c1
    | .defaultBody =>
      -- while (!check(TOKEN_RIGHT_BRACE)) statement();
      if c.peekTok = .rbrace then some c
      else runComp fuel .stmt c >>= fun c1 => runComp fuel .defaultBody c1
    | .expr prec =>
      -- parsePrecedence(prec): advance, prefix rule, infix loop
      match c.toks with
      | [] => none
      | t :: rest =>
        let c1 : Comp := { c with toks := rest }
        let canAssign : Bool := decide (prec ≤ PREC_ASSIGNMENT)
        (match t with
         | .num n => some (c1.writeConst (Value.num ⟨(n : Int), 1⟩))
         | .str s =>
           let r := copyString s c1.intern
           some (Comp.writeConst { c1 with intern := r.2 } (Value.str r.1))
         | .ident name =>
           -- variable() / namedVariable: resolveLocal misses (the only
           -- local of a script compiler is the reserved empty name), so
           -- the global path is taken
           let r := Comp.identConst c1 name
           if canAssign && decide (Comp.peekTok r.2 = .teq) then
             runComp fuel (.expr PREC_ASSIGNMENT) r.2.advance >>= fun c2 =>
             some ((c2.emit OP_SET_GLOBAL).emit r.1)
           else some ((r.2.emit OP_GET_GLOBAL).emit r.1)
         | .lparen =>
           -- grouping(): expression(); consume ')'
           runComp fuel (.expr PREC_ASSIGNMENT) c1 >>= fun c2 =>
           c2.consume .rparen
         | _ => none) >>= fun c3 =>
        runComp fuel (.infixLoop prec canAssign) c3
    | .infixLoop prec canAssign =>
      -- while (precedence <= getRule(parser.current.type)->precedence)
      if prec ≤ infixPrec c.peekTok then
        match c.peekTok with
        | .question =>
          -- advance(); ternary(canAssign)
          let r := c.advance.emitJump OP_JUMP_IF_FALSE
          let c1 := r.2.emit OP_POP
          runComp fuel (.expr PREC_TERNARY) c1 >>= fun c2 =>
          (c2.consume .colon) >>= fun c3 =>
          let r2 := c3.emitJump OP_JUMP
          let c4 := (r2.2.patchJump r.1).emit OP_POP
          runComp fuel (.expr PREC_ASSIGNMENT) c4 >>= fun c5 =>
          runComp fuel (.infixLoop prec canAssign) (c5.patchJump r2.1)
        | _ => none
      else
        -- if (canAssign && match(TOKEN_EQUAL)) error("Invalid ...");
        if canAssign && decide (c.peekTok = .teq) then none else some c

/-- `compile(source)`: run the declaration loop from a fresh compiler
state and finish with `endCompiler`'s `emitReturn` (`OP_NIL`;
`OP_RETURN`).  Returns the script chunk.  (`initVM` additionally interns
`"clock"` and defines the `clock` native before interpreting; that
prelude touches neither the names nor the output of the modelled
programs and is elided.) -/
def compileSource (fuel : Nat) (toks : List Tok) : Option (List Nat × List Value × Intern) :=
  (runComp fuel .decls ⟨toks, [], [], ⟨initTable, 0, []⟩, false, 0, 0, []⟩).map
    fun c => (((c.emit OP_NIL).emit OP_RETURN).code, c.constants, c.intern)

/-- `isFalsey` from `src/vm.c`: nil and false are falsey. -/
def isFalsey : Value → Bool
  | .nil => true
  | .vbool b => !b
  | _ => false

/-- The interpreter state of the single script frame: chunk, `ip`,
value stack (top first), `vm.globals`, and the values printed so far. -/
structure RunState where
  code : List Nat
  constants : List Value
  ip : Nat
  stack : List Value
  globals : Table
  printed : List Value

/-- The `run()` loop of `src/vm.c` for the opcodes the modelled chunks
use, single frame (the script): each arm is the corresponding `case` of
the interpreter switch.  `OP_JUMP_IF_FALSE` peeks (`falsey(peek(0)) *
offset`) and does not pop.  `none` is a runtime error (or exhausted
fuel); `some` is `INTERPRET_OK` with the list of printed values. -/
def vmRun : Nat → RunState → Option (List Value)
  | 0, _ => none
  | fuel + 1, s =>
    match s.code[s.ip]? with
    | none => none
    | some b =>
      if b = OP_CONSTANT then
        match s.code[s.ip + 1]? with
        | none => none
        | some i =>
          match s.constants[i]? with
          | none => none
          | some v => vmRun fuel { s with ip := s.ip + 2, stack := v :: s.stack }
      else if b = OP_NIL then
        vmRun fuel { s with ip := s.ip + 1, stack := .nil :: s.stack }
      else if b = OP_POP then
        match s.stack with
        | _ :: st => vmRun fuel { s with ip := s.ip + 1, stack := st }
        | [] => none
      else if b = OP_DUP then
        -- push(peek(0))
        match s.stack with
        | v :: st => vmRun fuel { s with ip := s.ip + 1, stack := v :: v :: st }
        | [] => none
      else if b = OP_EQUAL then
        match s.stack with
        | b2 :: a2 :: st =>
          vmRun fuel { s with
            ip := s.ip + 1
            stack := .vbool (valuesEqual a2 b2) :: st }
        | _ => none
      else if b = OP_PRINT then
        match s.stack with
        | v :: st =>
          vmRun fuel { s with
            ip := s.ip + 1
            stack := st
            printed := s.printed ++ [v] }
        | [] => none
      else if b = OP_JUMP then
        match s.code[s.ip + 1]?, s.code[s.ip + 2]? with
        | some hi, some lo => vmRun fuel { s with ip := s.ip + 3 + (hi * 256 + lo) }
        | _, _ => none
      else if b = OP_JUMP_IF_FALSE then
        match s.code[s.ip + 1]?, s.code[s.ip + 2]?, s.stack with
        | some hi, some lo, v :: _ =>
          vmRun fuel { s with
            ip := s.ip + 3 + (if isFalsey v then hi * 256 + lo else 0) }
        | _, _, _ => none
      else if b = OP_DEFINE_GLOBAL then
        match s.code[s.ip + 1]? with
        | some i =>
          match s.constants[i]? with
          | some (.str name) =>
            match s.stack with
            | v :: st =>
              vmRun fuel { s with
                ip := s.ip + 2
                stack := st
                globals := opDefineGlobal s.globals name v }
            | [] => none
          | _ => none
        | none => none
      else if b = OP_GET_GLOBAL then
        match s.code[s.ip + 1]? with
        | some i =>
          match s.constants[i]? with
          | some (.str name) =>
            match opGetGlobal s.globals name with
            | some v => vmRun fuel { s with ip := s.ip + 2, stack := v :: s.stack }
            | none => none
          | _ => none
        | none => none
      else if b = OP_SET_GLOBAL then
        match s.code[s.ip + 1]? with
        | some i =>
          match s.constants[i]? with
          | some (.str name) =>
            match s.stack with
            | v :: _ =>
              let r := opSetGlobal s.globals name v
              if r.2 then vmRun fuel { s with ip := s.ip + 2, globals := r.1 }
              else none
            | [] => none
          | _ => none
        | none => none
      else if b = OP_RETURN then
        -- script frame: pop the result, pop the script function, OK
        match s.stack with
        | _ :: _ :: _ => some s.printed
        | _ => none
      else none

/-- `interpret(source)` for a script without calls: compile, push the
script function, run. -/
def interpretSource (fuel : Nat) (toks : List Tok) : Option (List Value) :=
  match compileSource fuel toks with
  | none => none
  | some (code, consts, _) =>
    vmRun fuel ⟨code, consts, 0, [Value.fn 0 0 code consts none], initTable, []⟩

/-- What `printValue` writes for a string value, its bytes; the numeric
and boolean renderings are not needed (the programs below print only
strings). -/
def printedBytes : Value → List Nat
  | .str s => s.chars
  | _ => []

/-- The token list of the claim C7 program (scanner modelled):
`var x = 1; switch(x){ case 1: print "one"; fallthrough case 2:
print "two"; default: print "end"; }`. -/
def switchProgramToks : List Tok :=
  [.tvar, .ident [120], .teq, .num 1, .semi,
   .tswitch, .lparen, .ident [120], .rparen, .lbrace,
   .tcase, .num 1, .colon,
   .tprint, .str [111, 110, 101], .semi,
   .tfall,
   .tcase, .num 2, .colon,
   .tprint, .str [116, 119, 111], .semi,
   .tdefault, .colon,
   .tprint, .str [101, 110, 100], .semi,
   .rbrace, .teof]

/-- Tokens of the statement `print 1 ? 2 : 3 ? 4 : 5;`. -/
def ternChainToks : List Tok :=
  [.tprint, .num 1, .question, .num 2, .colon,
   .num 3, .question, .num 4, .colon, .num 5, .semi, .teof]

/-- Tokens of the statement `print 1 ? 2 : (3 ? 4 : 5);`: the explicit
right-associative reading. -/
def ternRightToks : List Tok :=
  [.tprint, .num 1, .question, .num 2, .colon, .lparen,
   .num 3, .question, .num 4, .colon, .num 5, .rparen, .semi, .teof]

/-- Tokens of the statement `print 1 ? 2 : 3;`. -/
def ternSimpleToks : List Tok :=
  [.tprint, .num 1, .question, .num 2, .colon, .num 3, .semi, .teof]

/-- Tokens of `print 1 ? x = 2 : 3;`: an assignment inside the true
branch. -/
def ternAssignTrueToks : List Tok :=
  [.tprint, .num 1, .question, .ident [120], .teq, .num 2, .colon,
   .num 3, .semi, .teof]

/-- Tokens of `print 1 ? 2 : x = 3;`: an assignment inside the else
branch. -/
def ternAssignElseToks : List Tok :=
  [.tprint, .num 1, .question, .num 2, .colon, .ident [120], .teq,
   .num 3, .semi, .teof]

/-! ## Claim-level specifications -/

/-- Claim C1's property of `copyString chars` on an intern state: a hit
returns the stored object and leaves the state alone; in all cases the
returned object is interned, carries the requested bytes, the intern
invariants survive, and no other interned string has those bytes. -/
def copyStringSpec (st : Intern) (chars : List Nat) : Prop :=
  (∀ j k v, st.strings.entries.getD j .empty = .live k v → k.chars = chars →
    copyString chars st = (k, st)) ∧
  wfIntern (copyString chars st).2 ∧
  (∃ j v, (copyString chars st).2.strings.entries.getD j .empty
      = .live (copyString chars st).1 v) ∧
  (copyString chars st).1.chars = chars ∧
  (∀ j k2 v2, (copyString chars st).2.strings.entries.getD j .empty = .live k2 v2 →
    k2.chars = chars → k2 = (copyString chars st).1)

/-- Claim C10's property of `takeString`: a hit frees the caller's
buffer (erases it from the live-buffer set) and returns the stored
object without touching the table; a miss allocates a new object owning
the buffer's bytes and interns it; either way the result is interned
and the invariants survive. -/
def takeStringSpec (st : Intern) (bufId : Nat) (chars : List Nat) : Prop :=
  (∀ j k v, st.strings.entries.getD j .empty = .live k v → k.chars = chars →
    takeString bufId chars st = (k, { st with liveBufs := st.liveBufs.erase bufId })) ∧
  (¬ bytesInterned st chars →
    (takeString bufId chars st).1 = ⟨st.nextSid, chars, hashString chars⟩ ∧
    (takeString bufId chars st).2.liveBufs = st.liveBufs) ∧
  wfIntern (takeString bufId chars st).2 ∧
  (∃ j v, (takeString bufId chars st).2.strings.entries.getD j .empty
      = .live (takeString bufId chars st).1 v)

/-- Claim C8's property of the three global opcodes over a globals
table: define stores unconditionally and touches no other name; get
mirrors the table lookup (so it errors exactly on absence); set
succeeds exactly on a present name, stores on success, and on failure
rolls the auto-inserted entry back so the name still misses, leaving
every other name alone. -/
def globalsSpec (g : Table) (name : ObjString) (v : Value) : Prop :=
  liveLookup (opDefineGlobal g name v).entries name = some v ∧
  (∀ m, m ≠ name → liveLookup (opDefineGlobal g name v).entries m
      = liveLookup g.entries m) ∧
  wfTable (opDefineGlobal g name v) ∧
  opGetGlobal g name = liveLookup g.entries name ∧
  ((opSetGlobal g name v).2 = false ↔ liveLookup g.entries name = none) ∧
  ((opSetGlobal g name v).2 = true →
    liveLookup (opSetGlobal g name v).1.entries name = some v) ∧
  ((opSetGlobal g name v).2 = false →
    liveLookup (opSetGlobal g name v).1.entries name = none) ∧
  (∀ m, m ≠ name → liveLookup (opSetGlobal g name v).1.entries m
      = liveLookup g.entries m)

/-! ### List and arithmetic helper lemmas -/

theorem getD_set_self (l : List Slot) (i : Nat) (s : Slot) (h : i < l.length) :
    (l.set i s).getD i .empty = s := by
  induction l generalizing i with
  | nil => simp at h
  | cons a l ih =>
    cases i with
    | zero => rfl
    | succ i => simpa [List.set, List.getD] using ih i (by simpa using h)

theorem getD_set_ne (l : List Slot) (i j : Nat) (s : Slot) (h : i ≠ j) :
    (l.set i s).getD j .empty = l.getD j .empty := by
  induction l generalizing i j with
  | nil => simp [List.set]
  | cons a l ih =>
    cases i with
    | zero =>
      cases j with
      | zero => exact absurd rfl h
      | succ j => rfl
    | succ i =>
      cases j with
      | zero => rfl
      | succ j => simpa [List.set, List.getD] using ih i j (by omega)

theorem getD_out_of_range (l : List Slot) (i : Nat) (h : l.length ≤ i) :
    l.getD i .empty = .empty := by
  induction l generalizing i with
  | nil => cases i <;> rfl
  | cons a l ih =>
    cases i with
    | zero => simp at h
    | succ i => simpa [List.getD] using ih i (by simpa using h)

theorem holds_lt_length (l : List Slot) (i : Nat) (k : ObjString)
    (h : (l.getD i .empty).holds k) : i < l.length := by
  by_contra hn
  rw [getD_out_of_range l i (by omega)] at h
  obtain ⟨v, hv⟩ := h
  cases hv

theorem getD_cons_zero (a : Slot) (l : List Slot) : (a :: l).getD 0 .empty = a := rfl

theorem getD_cons_succ (a : Slot) (l : List Slot) (i : Nat) :
    (a :: l).getD (i + 1) .empty = l.getD i .empty := rfl

theorem countNonEmpty_nil : countNonEmpty [] = 0 := rfl

theorem countNonEmpty_cons (a : Slot) (l : List Slot) :
    countNonEmpty (a :: l) = countNonEmpty l + (if a.nonEmpty then 1 else 0) := by
  simp [countNonEmpty, List.countP_cons]

theorem nonEmpty_empty : Slot.empty.nonEmpty = false := rfl

theorem nonEmpty_tomb : Slot.tomb.nonEmpty = true := rfl

theorem nonEmpty_live (k : ObjString) (v : Value) : (Slot.live k v).nonEmpty = true := rfl

theorem countNonEmpty_le_length (l : List Slot) : countNonEmpty l ≤ l.length := by
  unfold countNonEmpty
  exact List.countP_le_length _

theorem countNonEmpty_set (l : List Slot) (i : Nat) (s : Slot) (h : i < l.length) :
    countNonEmpty (l.set i s) + (if (l.getD i .empty).nonEmpty then 1 else 0)
      = countNonEmpty l + (if s.nonEmpty then 1 else 0) := by
  induction l generalizing i with
  | nil => simp at h
  | cons a l ih =>
    cases i with
    | zero =>
      simp only [List.set, getD_cons_zero, countNonEmpty_cons]
      omega
    | succ i =>
      have := ih i (by simpa using h)
      simp only [List.set, getD_cons_succ, countNonEmpty_cons]
      omega

theorem exists_empty_of_count_lt (l : List Slot) (h : countNonEmpty l < l.length) :
    ∃ e < l.length, l.getD e .empty = .empty := by
  induction l with
  | nil => simp at h
  | cons a l ih =>
    cases ha : a.nonEmpty with
    | false =>
      refine ⟨0, by simp, ?_⟩
      cases a with
      | empty => rfl
      | tomb => simp [Slot.nonEmpty] at ha
      | live k v => simp [Slot.nonEmpty] at ha
    | true =>
      have h' : countNonEmpty l < l.length := by
        simp [countNonEmpty_cons, ha] at h
        omega
      obtain ⟨e, he, hee⟩ := ih h'
      exact ⟨e + 1, by simp only [List.length_cons]; omega, hee⟩

theorem mod_probe_step (a n : Nat) : (a % n + 1) % n = (a + 1) % n := by
  simpa using Nat.mod_add_mod a n 1

theorem mod_shift_out (h d n : Nat) : (h + d % n) % n = (h + d) % n :=
  Nat.ModEq.add_left h (Nat.mod_modEq d n)

theorem probe_wrap (h j n : Nat) (hh : h < n) (hj : j < n) :
    (h + (j + n - h) % n) % n = j := by
  rw [mod_shift_out]
  have key : h + (j + n - h) = j + n := by omega
  rw [key, Nat.add_mod_right, Nat.mod_eq_of_lt hj]

theorem probe_inj (h j d n : Nat) (hj : j < d) (hd : d < n)
    (he : (h + j) % n = (h + d) % n) : False := by
  have hme : j ≡ d [MOD n] := Nat.ModEq.add_left_cancel (Nat.ModEq.refl h) he
  have : j % n = d % n := hme
  rw [Nat.mod_eq_of_lt (by omega), Nat.mod_eq_of_lt hd] at this
  omega

/-! ### Properties of the probe scan `findEntryGo` -/

/-! ### Properties of the probe scan `findEntryGo` -/

theorem findEntryGo_found (es : List Slot) (k : ObjString) :
    ∀ fuel idx tomb i, findEntryGo es k fuel idx tomb = some (i, true) →
      ∃ v, es.getD i .empty = .live k v := by
  intro fuel
  induction fuel with
  | zero => intro idx tomb i hres; simp [findEntryGo] at hres
  | succ fuel ih =>
    intro idx tomb i hres
    cases heq : es.getD idx .empty with
    | empty => simp only [findEntryGo, heq] at hres; simp at hres
    | tomb => simp only [findEntryGo, heq] at hres; exact ih _ _ _ hres
    | live k2 v2 =>
      simp only [findEntryGo, heq] at hres
      by_cases hk : k2 = k
      · rw [if_pos hk] at hres
        simp only [Option.some.injEq, Prod.mk.injEq] at hres
        obtain ⟨rfl, -⟩ := hres
        exact ⟨v2, by rw [heq, hk]⟩
      · rw [if_neg hk] at hres
        exact ih _ _ _ hres

theorem findEntryGo_notfound (es : List Slot) (k : ObjString) :
    ∀ fuel idx tomb i, (∀ t, tomb = some t → es.getD t .empty = .tomb) →
      findEntryGo es k fuel idx tomb = some (i, false) →
      es.getD i .empty = .empty ∨ es.getD i .empty = .tomb := by
  intro fuel
  induction fuel with
  | zero => intro idx tomb i _ hres; simp [findEntryGo] at hres
  | succ fuel ih =>
    intro idx tomb i htomb hres
    cases heq : es.getD idx .empty with
    | empty =>
      simp only [findEntryGo, heq, Option.some.injEq, Prod.mk.injEq] at hres
      obtain ⟨hres1, -⟩ := hres
      cases htc : tomb with
      | none => subst htc; simp at hres1; subst hres1; exact Or.inl heq
      | some t =>
        subst htc; simp at hres1; subst hres1
        exact Or.inr (htomb t rfl)
    | tomb =>
      simp only [findEntryGo, heq] at hres
      refine ih _ _ _ ?_ hres
      intro t ht
      cases htc : tomb with
      | none => subst htc; simp at ht; subst ht; exact heq
      | some t0 => subst htc; simp at ht; subst ht; exact htomb t0 rfl
    | live k2 v2 =>
      simp only [findEntryGo, heq] at hres
      by_cases hk : k2 = k
      · rw [if_pos hk] at hres; simp at hres
      · rw [if_neg hk] at hres; exact ih _ _ _ htomb hres

theorem findEntryGo_reach (es : List Slot) (k : ObjString) (v : Value) :
    ∀ r fuel s tomb,
      es.getD ((k.hash % es.length + (s + r)) % es.length) .empty = .live k v →
      (∀ j < r, (es.getD ((k.hash % es.length + (s + j)) % es.length) .empty).nonEmpty) →
      r < fuel →
      ∃ i v2, findEntryGo es k fuel ((k.hash % es.length + s) % es.length) tomb
          = some (i, true) ∧ es.getD i .empty = .live k v2 := by
  intro r
  induction r with
  | zero =>
    intro fuel s tomb htgt _ hfuel
    obtain ⟨fuel, rfl⟩ : ∃ f, fuel = f + 1 := ⟨fuel - 1, by omega⟩
    rw [show s + 0 = s from rfl] at htgt
    refine ⟨(k.hash % es.length + s) % es.length, v, ?_, htgt⟩
    simp only [findEntryGo, htgt]
    simp
  | succ r ih =>
    intro fuel s tomb htgt hpath hfuel
    obtain ⟨fuel, rfl⟩ : ∃ f, fuel = f + 1 := ⟨fuel - 1, by omega⟩
    have hstep : ((k.hash % es.length + s) % es.length + 1) % es.length
        = (k.hash % es.length + (s + 1)) % es.length := by
      rw [mod_probe_step, ← Nat.add_assoc]
    have h0 : (es.getD ((k.hash % es.length + (s + 0)) % es.length) .empty).nonEmpty :=
      hpath 0 (by omega)
    rw [show s + 0 = s from rfl] at h0
    cases heq : es.getD ((k.hash % es.length + s) % es.length) .empty with
    | empty => rw [heq] at h0; simp [Slot.nonEmpty] at h0
    | tomb =>
      have hrec := ih fuel (s + 1) (some (tomb.getD ((k.hash % es.length + s) % es.length)))
        (by rw [show s + 1 + r = s + (r + 1) from by omega]; exact htgt)
        (by intro j hj
            rw [show s + 1 + j = s + (j + 1) from by omega]
            exact hpath (j + 1) (by omega))
        (by omega)
      obtain ⟨i, v2, hres, hslot⟩ := hrec
      refine ⟨i, v2, ?_, hslot⟩
      simp only [findEntryGo, heq]
      rw [hstep]
      exact hres
    | live k2 v2 =>
      by_cases hk : k2 = k
      · refine ⟨(k.hash % es.length + s) % es.length, v2, ?_, by rw [heq, hk]⟩
        simp only [findEntryGo, heq, if_pos hk]
      · have hrec := ih fuel (s + 1) tomb
          (by rw [show s + 1 + r = s + (r + 1) from by omega]; exact htgt)
          (by intro j hj
              rw [show s + 1 + j = s + (j + 1) from by omega]
              exact hpath (j + 1) (by omega))
          (by omega)
        obtain ⟨i, v3, hres, hslot⟩ := hrec
        refine ⟨i, v3, ?_, hslot⟩
        simp only [findEntryGo, heq, if_neg hk]
        rw [hstep]
        exact hres

theorem findEntryGo_stop (es : List Slot) (k : ObjString) :
    ∀ r fuel s tomb,
      es.getD ((k.hash % es.length + (s + r)) % es.length) .empty = .empty →
      (∀ j < r, (es.getD ((k.hash % es.length + (s + j)) % es.length) .empty).nonEmpty) →
      r < fuel →
      ∃ res, findEntryGo es k fuel ((k.hash % es.length + s) % es.length) tomb = some res := by
  intro r
  induction r with
  | zero =>
    intro fuel s tomb htgt _ hfuel
    obtain ⟨fuel, rfl⟩ : ∃ f, fuel = f + 1 := ⟨fuel - 1, by omega⟩
    rw [show s + 0 = s from rfl] at htgt
    refine ⟨(tomb.getD ((k.hash % es.length + s) % es.length), false), ?_⟩
    simp only [findEntryGo, htgt]
  | succ r ih =>
    intro fuel s tomb htgt hpath hfuel
    obtain ⟨fuel, rfl⟩ : ∃ f, fuel = f + 1 := ⟨fuel - 1, by omega⟩
    have hstep : ((k.hash % es.length + s) % es.length + 1) % es.length
        = (k.hash % es.length + (s + 1)) % es.length := by
      rw [mod_probe_step, ← Nat.add_assoc]
    have h0 : (es.getD ((k.hash % es.length + (s + 0)) % es.length) .empty).nonEmpty :=
      hpath 0 (by omega)
    rw [show s + 0 = s from rfl] at h0
    cases heq : es.getD ((k.hash % es.length + s) % es.length) .empty with
    | empty => rw [heq] at h0; simp [Slot.nonEmpty] at h0
    | tomb =>
      have hrec := ih fuel (s + 1) (some (tomb.getD ((k.hash % es.length + s) % es.length)))
        (by rw [show s + 1 + r = s + (r + 1) from by omega]; exact htgt)
        (by intro j hj
            rw [show s + 1 + j = s + (j + 1) from by omega]
            exact hpath (j + 1) (by omega))
        (by omega)
      obtain ⟨res, hres⟩ := hrec
      refine ⟨res, ?_⟩
      simp only [findEntryGo, heq]
      rw [hstep]
      exact hres
    | live k2 v2 =>
      by_cases hk : k2 = k
      · exact ⟨((k.hash % es.length + s) % es.length, true),
          by simp only [findEntryGo, heq, if_pos hk]⟩
      · have hrec := ih fuel (s + 1) tomb
          (by rw [show s + 1 + r = s + (r + 1) from by omega]; exact htgt)
          (by intro j hj
              rw [show s + 1 + j = s + (j + 1) from by omega]
              exact hpath (j + 1) (by omega))
          (by omega)
        obtain ⟨res, hres⟩ := hrec
        refine ⟨res, ?_⟩
        simp only [findEntryGo, heq, if_neg hk]
        rw [hstep]
        exact hres

theorem findEntryGo_path (es : List Slot) (k : ObjString) :
    ∀ fuel s tomb i b,
      (∀ j < s, (es.getD ((k.hash % es.length + j) % es.length) .empty).nonEmpty) →
      (∀ t, tomb = some t → ∃ st, t = (k.hash % es.length + st) % es.length ∧
          ∀ j < st, (es.getD ((k.hash % es.length + j) % es.length) .empty).nonEmpty) →
      findEntryGo es k fuel ((k.hash % es.length + s) % es.length) tomb = some (i, b) →
      ∃ dI, i = (k.hash % es.length + dI) % es.length ∧
        ∀ j < dI, (es.getD ((k.hash % es.length + j) % es.length) .empty).nonEmpty := by
  intro fuel
  induction fuel with
  | zero => intro s tomb i b _ _ hres; simp [findEntryGo] at hres
  | succ fuel ih =>
    intro s tomb i b hpre htomb hres
    have hstep : ((k.hash % es.length + s) % es.length + 1) % es.length
        = (k.hash % es.length + (s + 1)) % es.length := by
      rw [mod_probe_step, ← Nat.add_assoc]
    cases heq : es.getD ((k.hash % es.length + s) % es.length) .empty with
    | empty =>
      simp only [findEntryGo, heq, Option.some.injEq, Prod.mk.injEq] at hres
      obtain ⟨hres1, -⟩ := hres
      cases htc : tomb with
      | none =>
        subst htc; simp only [Option.getD_none] at hres1
        exact ⟨s, hres1.symm, hpre⟩
      | some t =>
        subst htc; simp only [Option.getD_some] at hres1
        obtain ⟨st, hst, hstp⟩ := htomb t rfl
        exact ⟨st, by rw [← hres1, hst], hstp⟩
    | tomb =>
      simp only [findEntryGo, heq] at hres
      rw [hstep] at hres
      refine ih (s + 1) _ i b ?_ ?_ hres
      · intro j hj
        rcases Nat.lt_succ_iff_lt_or_eq.mp hj with hj2 | rfl
        · exact hpre j hj2
        · rw [heq]; rfl
      · intro t ht
        cases htc : tomb with
        | none =>
          subst htc; simp only [Option.getD_none, Option.some.injEq] at ht
          exact ⟨s, ht.symm, hpre⟩
        | some t0 =>
          subst htc; simp only [Option.getD_some, Option.some.injEq] at ht; subst ht
          exact htomb t0 rfl
    | live k2 v2 =>
      simp only [findEntryGo, heq] at hres
      by_cases hk : k2 = k
      · rw [if_pos hk] at hres
        simp only [Option.some.injEq, Prod.mk.injEq] at hres
        obtain ⟨hres1, -⟩ := hres
        exact ⟨s, hres1.symm, hpre⟩
      · rw [if_neg hk] at hres
        rw [hstep] at hres
        refine ih (s + 1) _ i b ?_ htomb hres
        intro j hj
        rcases Nat.lt_succ_iff_lt_or_eq.mp hj with hj2 | rfl
        · exact hpre j hj2
        · rw [heq]; rfl

/-! ### Properties of `findEntry` -/

theorem mod_mod (a n : Nat) : a % n % n = a % n := Nat.mod_mod_of_dvd a dvd_rfl

theorem uniq_holds (es : List Slot) (k : ObjString) (hu : uniqKeys es) (i j : Nat)
    (hi : (es.getD i .empty).holds k) (hj : (es.getD j .empty).holds k) : i = j := by
  have hil := holds_lt_length es i k hi
  have hjl := holds_lt_length es j k hj
  obtain ⟨v, hv⟩ := hi
  have := hu i hil j hjl
  rw [hv] at this
  exact this hj

theorem findEntry_found (es : List Slot) (k : ObjString) (i : Nat)
    (hres : findEntry es k = some (i, true)) : ∃ v, es.getD i .empty = .live k v := by
  unfold findEntry at hres
  by_cases h0 : es.length = 0
  · rw [if_pos h0] at hres; cases hres
  · rw [if_neg h0] at hres
    exact findEntryGo_found es k _ _ _ _ hres

theorem findEntry_complete (es : List Slot) (k : ObjString)
    (hpi : probeInvariant es) (hpresent : keyPresent es k) :
    ∃ i v, findEntry es k = some (i, true) ∧ es.getD i .empty = .live k v := by
  obtain ⟨j, hjl, v, hjv⟩ := hpresent
  have hn : 0 < es.length := Nat.pos_of_ne_zero (by intro h; rw [h] at hjl; omega)
  have hpo : probeOk es j k := by
    have := hpi j hjl
    rw [hjv] at this
    exact this
  obtain ⟨d, hd, hjd, hpath⟩ := hpo
  have hreach := findEntryGo_reach es k v d es.length 0 none
    (by rw [Nat.zero_add, ← hjd]; exact hjv)
    (by intro j2 hj2; rw [Nat.zero_add]; exact hpath j2 hj2)
    hd
  obtain ⟨i, v2, hres, hslot⟩ := hreach
  refine ⟨i, v2, ?_, hslot⟩
  unfold findEntry
  rw [if_neg (by omega)]
  rw [show k.hash % es.length = (k.hash % es.length + 0) % es.length from by
    rw [Nat.add_zero, mod_mod]]
  exact hres

theorem findEntry_total (es : List Slot) (k : ObjString)
    (hn : 0 < es.length) (hlt : countNonEmpty es < es.length) :
    ∃ res, findEntry es k = some res := by
  obtain ⟨e, hel, hee⟩ := exists_empty_of_count_lt es hlt
  have hh : k.hash % es.length < es.length := Nat.mod_lt _ hn
  have hde : (k.hash % es.length + (e + es.length - k.hash % es.length) % es.length)
      % es.length = e := probe_wrap _ e _ hh hel
  have hex : ∃ d, (es.getD ((k.hash % es.length + d) % es.length) .empty).nonEmpty = false := by
    refine ⟨(e + es.length - k.hash % es.length) % es.length, ?_⟩
    rw [hde, hee]; rfl
  classical
  let d0 := Nat.find hex
  have hP : (es.getD ((k.hash % es.length + d0) % es.length) .empty).nonEmpty = false :=
    Nat.find_spec hex
  have hmin : ∀ j < d0, (es.getD ((k.hash % es.length + j) % es.length) .empty).nonEmpty := by
    intro j hj
    have := Nat.find_min hex hj
    cases hx : (es.getD ((k.hash % es.length + j) % es.length) .empty).nonEmpty with
    | true => rfl
    | false => exact absurd hx this
  have hd0 : d0 < es.length := by
    have : d0 ≤ (e + es.length - k.hash % es.length) % es.length := Nat.find_min' hex (by
      rw [hde, hee]; rfl)
    have h2 : (e + es.length - k.hash % es.length) % es.length < es.length := Nat.mod_lt _ hn
    omega
  have hempty : es.getD ((k.hash % es.length + d0) % es.length) .empty = .empty := by
    cases hx : es.getD ((k.hash % es.length + d0) % es.length) .empty with
    | empty => rfl
    | tomb => rw [hx] at hP; cases hP
    | live k2 v2 => rw [hx] at hP; cases hP
  have hstop := findEntryGo_stop es k d0 es.length 0 none
    (by rw [Nat.zero_add]; exact hempty)
    (by intro j hj; rw [Nat.zero_add]; exact hmin j hj)
    hd0
  obtain ⟨res, hres⟩ := hstop
  refine ⟨res, ?_⟩
  unfold findEntry
  rw [if_neg (by omega)]
  rw [show k.hash % es.length = (k.hash % es.length + 0) % es.length from by
    rw [Nat.add_zero, mod_mod]]
  exact hres

theorem findEntry_path (es : List Slot) (k : ObjString) (i : Nat) (b : Bool)
    (hres : findEntry es k = some (i, b)) :
    ∃ dI, i = (k.hash % es.length + dI) % es.length ∧
      ∀ j < dI, (es.getD ((k.hash % es.length + j) % es.length) .empty).nonEmpty := by
  unfold findEntry at hres
  by_cases h0 : es.length = 0
  · rw [if_pos h0] at hres; cases hres
  · rw [if_neg h0] at hres
    rw [show k.hash % es.length = (k.hash % es.length + 0) % es.length from by
      rw [Nat.add_zero, mod_mod]] at hres
    exact findEntryGo_path es k es.length 0 none i b
      (by intro j hj; omega) (by intro t ht; cases ht) hres

theorem path_bound (es : List Slot) (dI : Nat) (k : ObjString)
    (hlt : countNonEmpty es < es.length)
    (hpath : ∀ j < dI, (es.getD ((k.hash % es.length + j) % es.length) .empty).nonEmpty) :
    dI < es.length := by
  by_contra hge
  obtain ⟨e, hel, hee⟩ := exists_empty_of_count_lt es hlt
  have hn : 0 < es.length := by omega
  have hh : k.hash % es.length < es.length := Nat.mod_lt _ hn
  have hde := probe_wrap (k.hash % es.length) e es.length hh hel
  have hdlt : (e + es.length - k.hash % es.length) % es.length < dI := by
    have := Nat.mod_lt (e + es.length - k.hash % es.length) hn
    omega
  have := hpath _ hdlt
  rw [hde, hee] at this
  cases this

theorem findEntry_i_lt (es : List Slot) (k : ObjString) (i : Nat) (b : Bool)
    (hres : findEntry es k = some (i, b)) : i < es.length := by
  obtain ⟨dI, hi, -⟩ := findEntry_path es k i b hres
  have h0 : es.length ≠ 0 := by
    intro h
    unfold findEntry at hres
    rw [if_pos h] at hres; cases hres
  rw [hi]
  exact Nat.mod_lt _ (by omega)

theorem findEntry_notfound_slot (es : List Slot) (k : ObjString) (i : Nat)
    (hres : findEntry es k = some (i, false)) :
    es.getD i .empty = .empty ∨ es.getD i .empty = .tomb := by
  unfold findEntry at hres
  by_cases h0 : es.length = 0
  · rw [if_pos h0] at hres; cases hres
  · rw [if_neg h0] at hres
    exact findEntryGo_notfound es k _ _ _ _ (by intro t ht; cases ht) hres

theorem findEntry_notfound_absent (es : List Slot) (k : ObjString) (i : Nat)
    (hpi : probeInvariant es) (hres : findEntry es k = some (i, false)) :
    ¬ keyPresent es k := by
  intro hpresent
  obtain ⟨i2, v, hres2, -⟩ := findEntry_complete es k hpi hpresent
  rw [hres] at hres2
  cases hres2

/-! ### The live contents and `liveLookup` -/

theorem liveLookup_nil (k : ObjString) : liveLookup [] k = none := rfl

theorem slotMatchVal_none (s : Slot) (k : ObjString) (h : ∀ v, s ≠ .live k v) :
    slotMatchVal s k = none := by
  cases s with
  | empty => rfl
  | tomb => rfl
  | live k2 v =>
    have hk : ¬ k2 = k := by intro hkk; exact h v (by rw [hkk])
    simp [slotMatchVal, hk]

theorem liveLookup_cons (a : Slot) (l : List Slot) (k : ObjString) :
    liveLookup (a :: l) k =
      (slotMatchVal a k).orElse (fun _ => liveLookup l k) := by
  unfold liveLookup
  rw [List.findSome?_cons]
  cases h : slotMatchVal a k with
  | none => simp
  | some v => simp

theorem liveLookup_absent (es : List Slot) (k : ObjString)
    (habs : ¬ keyPresent es k) : liveLookup es k = none := by
  induction es with
  | nil => rfl
  | cons a l ih =>
    rw [liveLookup_cons]
    have ha : ∀ v, a ≠ Slot.live k v := by
      intro v hv
      exact habs ⟨0, by simp, v, by rw [getD_cons_zero, hv]⟩
    have hl : ¬ keyPresent l k := by
      intro ⟨i, hil, hh⟩
      exact habs ⟨i + 1, by simpa using hil, by rwa [getD_cons_succ]⟩
    rw [slotMatchVal_none a k ha]
    simpa using ih hl

theorem liveLookup_unique (es : List Slot) (k : ObjString) (v : Value) (j : Nat)
    (hj : es.getD j .empty = .live k v)
    (huniq : ∀ i, (es.getD i .empty).holds k → i = j) :
    liveLookup es k = some v := by
  induction es generalizing j with
  | nil =>
    rw [getD_out_of_range [] j (by simp)] at hj
    cases hj
  | cons a l ih =>
    rw [liveLookup_cons]
    cases j with
    | zero =>
      rw [getD_cons_zero] at hj
      subst hj
      simp [slotMatchVal]
    | succ j =>
      rw [getD_cons_succ] at hj
      have ha : ∀ v2, a ≠ Slot.live k v2 := by
        intro v2 hv2
        have := huniq 0 (by rw [getD_cons_zero, hv2]; exact ⟨v2, rfl⟩)
        cases this
      have hrec := ih j hj (by
        intro i hi
        have := huniq (i + 1) (by rwa [getD_cons_succ])
        omega)
      rw [slotMatchVal_none a k ha]
      simpa using hrec

theorem liveLookup_set_untouched (es : List Slot) (i : Nat) (s : Slot) (m : ObjString)
    (hold : ∀ v, es.getD i .empty ≠ .live m v) (hnew : ∀ v, s ≠ .live m v) :
    liveLookup (es.set i s) m = liveLookup es m := by
  induction es generalizing i with
  | nil => rfl
  | cons a l ih =>
    cases i with
    | zero =>
      rw [getD_cons_zero] at hold
      show liveLookup (s :: l) m = liveLookup (a :: l) m
      rw [liveLookup_cons, liveLookup_cons, slotMatchVal_none s m hnew,
        slotMatchVal_none a m hold]
    | succ i =>
      rw [getD_cons_succ] at hold
      show liveLookup (a :: l.set i s) m = liveLookup (a :: l) m
      rw [liveLookup_cons, liveLookup_cons, ih i hold]

/-! ### Specification of the table operations -/

theorem probeOk_mono (es es2 : List Slot) (hlen : es2.length = es.length)
    (hmono : ∀ j, (es.getD j .empty).nonEmpty → (es2.getD j .empty).nonEmpty)
    (i : Nat) (k : ObjString) (h : probeOk es i k) : probeOk es2 i k := by
  obtain ⟨d, hd, hid, hpath⟩ := h
  exact ⟨d, by omega, by rw [hlen]; exact hid, by
    intro j hj
    rw [hlen]
    exact hmono _ (hpath j hj)⟩

theorem holds_of_set_ne (es : List Slot) (i j : Nat) (s : Slot) (k : ObjString)
    (hne : j ≠ i) (h : ((es.set i s).getD j .empty).holds k) :
    (es.getD j .empty).holds k := by
  rwa [getD_set_ne es i j s (by omega)] at h

/-- Full behavioural specification of `tableSetRaw` on a table whose
entry array satisfies the structural invariants and has room for one more
entry. -/
theorem tableSetRaw_spec (t : Table) (k : ObjString) (v : Value)
    (hpos : 0 < t.entries.length)
    (hcount : t.count = countNonEmpty t.entries)
    (hroom : t.count + 1 < t.entries.length)
    (hpi : probeInvariant t.entries) (hu : uniqKeys t.entries) :
    setRawPost t k v := by
  have hclt : countNonEmpty t.entries < t.entries.length := by omega
  obtain ⟨⟨i, b⟩, hres⟩ := findEntry_total t.entries k hpos hclt
  have hil : i < t.entries.length := findEntry_i_lt _ _ _ _ hres
  have hlenset : (t.entries.set i (Slot.live k v)).length = t.entries.length := by simp
  cases b with
  | true =>
    -- the key is already present: in-place update, `isNewKey = false`
    obtain ⟨v0, hslot⟩ := findEntry_found t.entries k i hres
    have hset : tableSetRaw t k v = (⟨t.count, t.entries.set i (Slot.live k v)⟩, false) := by
      simp only [tableSetRaw, hres]
      simp
    have hpresent : keyPresent t.entries k := ⟨i, hil, v0, hslot⟩
    have hkeys : ∀ j k2, (((t.entries.set i (Slot.live k v)).getD j .empty)).holds k2 ↔
        ((t.entries.getD j .empty)).holds k2 := by
      intro j k2
      by_cases hji : j = i
      · rw [hji, getD_set_self _ _ _ hil, hslot]
        constructor
        · intro ⟨v2, hv2⟩; cases hv2; exact ⟨v0, rfl⟩
        · intro ⟨v2, hv2⟩; cases hv2; exact ⟨v, rfl⟩
      · rw [getD_set_ne _ _ _ _ (by omega)]
    have hmono : ∀ j, ((t.entries.getD j .empty)).nonEmpty →
        (((t.entries.set i (Slot.live k v)).getD j .empty)).nonEmpty := by
      intro j _
      by_cases hji : j = i
      · rw [hji, getD_set_self _ _ _ hil]; rfl
      · rwa [getD_set_ne _ _ _ _ (by omega)]
    unfold setRawPost
    rw [hset]
    refine ⟨hlenset, ?_, by show t.count ≤ t.count + 1; omega, ?_, ?_, ?_, ?_, ?_⟩
    · show t.count = countNonEmpty (t.entries.set i (Slot.live k v))
      have hcs := countNonEmpty_set t.entries i (Slot.live k v) hil
      rw [hslot, nonEmpty_live, nonEmpty_live, if_pos rfl] at hcs
      omega
    · intro j hjl
      rw [hlenset] at hjl
      cases hslot2 : (t.entries.set i (Slot.live k v)).getD j .empty with
      | empty => exact trivial
      | tomb => exact trivial
      | live k2 v2 =>
        show probeOk _ j k2
        have hold : ((t.entries.getD j .empty)).holds k2 := by
          rw [← hkeys j k2, hslot2]; exact ⟨v2, rfl⟩
        obtain ⟨v3, hv3⟩ := hold
        have hpo := hpi j hjl
        rw [hv3] at hpo
        exact probeOk_mono _ _ hlenset hmono j k2 hpo
    · intro i2 hi2 j2 hj2
      rw [hlenset] at hi2 hj2
      cases hslot2 : (t.entries.set i (Slot.live k v)).getD i2 .empty with
      | empty => exact trivial
      | tomb => exact trivial
      | live k2 v2 =>
        show _ → i2 = j2
        intro hh
        have h1 : ((t.entries.getD i2 .empty)).holds k2 := by
          rw [← hkeys i2 k2, hslot2]; exact ⟨v2, rfl⟩
        have h2 : ((t.entries.getD j2 .empty)).holds k2 := (hkeys j2 k2).mp hh
        exact uniq_holds _ _ hu i2 j2 h1 h2
    · refine liveLookup_unique _ k v i (getD_set_self _ _ _ hil) ?_
      intro i2 hi2
      exact uniq_holds _ _ hu i2 i ((hkeys i2 k).mp hi2) ⟨v0, hslot⟩
    · intro m hm
      refine liveLookup_set_untouched _ _ _ _ ?_ ?_
      · intro v2 hv2
        rw [hslot] at hv2
        cases hv2; exact hm rfl
      · intro v2 hv2; cases hv2; exact hm rfl
    · exact ⟨(fun hh => nomatch hh), fun hh => absurd hpresent hh⟩
  | false =>
    -- fresh key: occupy the returned empty or tombstone slot
    have habsent : ¬ keyPresent t.entries k := findEntry_notfound_absent t.entries k i hpi hres
    have hslot : t.entries.getD i .empty = .empty ∨ t.entries.getD i .empty = .tomb :=
      findEntry_notfound_slot t.entries k i hres
    obtain ⟨dI, hidI, hpathI⟩ := findEntry_path t.entries k i false hres
    have hdIlt : dI < t.entries.length := path_bound t.entries dI k hclt hpathI
    have hnotholds : ∀ j, ¬ ((t.entries.getD j .empty)).holds k := by
      intro j hh
      exact habsent ⟨j, holds_lt_length _ _ _ hh, hh⟩
    have hkeysne : ∀ j k2, j ≠ i →
        ((((t.entries.set i (Slot.live k v)).getD j .empty)).holds k2 ↔
          ((t.entries.getD j .empty)).holds k2) := by
      intro j k2 hji
      rw [getD_set_ne _ _ _ _ (by omega)]
    have hmono : ∀ j, ((t.entries.getD j .empty)).nonEmpty →
        (((t.entries.set i (Slot.live k v)).getD j .empty)).nonEmpty := by
      intro j _
      by_cases hji : j = i
      · rw [hji, getD_set_self _ _ _ hil]; rfl
      · rwa [getD_set_ne _ _ _ _ (by omega)]
    have huniqnew : ∀ i2, (((t.entries.set i (Slot.live k v)).getD i2 .empty)).holds k →
        i2 = i := by
      intro i2 hh
      by_cases hji : i2 = i
      · exact hji
      · exact absurd ((hkeysne i2 k hji).mp hh) (hnotholds i2)
    have hset : tableSetRaw t k v =
        (⟨if (t.entries.getD i .empty).nonEmpty then t.count else t.count + 1,
          t.entries.set i (Slot.live k v)⟩, true) := by
      simp only [tableSetRaw, hres]
      cases hslot with
      | inl he => rw [he]; simp [nonEmpty_empty]
      | inr ht => rw [ht]; simp [nonEmpty_tomb]
    unfold setRawPost
    rw [hset]
    refine ⟨hlenset, ?_, ?_, ?_, ?_, ?_, ?_, ?_⟩
    · show (if (t.entries.getD i .empty).nonEmpty then t.count else t.count + 1)
        = countNonEmpty (t.entries.set i (Slot.live k v))
      have hcs := countNonEmpty_set t.entries i (Slot.live k v) hil
      rw [nonEmpty_live, if_pos rfl] at hcs
      cases hslot with
      | inl he =>
        rw [he, nonEmpty_empty, if_neg Bool.false_ne_true] at hcs ⊢
        omega
      | inr ht =>
        rw [ht, nonEmpty_tomb, if_pos rfl] at hcs ⊢
        omega
    · show (if (t.entries.getD i .empty).nonEmpty then t.count else t.count + 1) ≤ t.count + 1
      cases hslot with
      | inl he => rw [he, nonEmpty_empty, if_neg Bool.false_ne_true]
      | inr ht => rw [ht, nonEmpty_tomb, if_pos rfl]; omega
    · intro j hjl
      rw [hlenset] at hjl
      cases hslot2 : (t.entries.set i (Slot.live k v)).getD j .empty with
      | empty => exact trivial
      | tomb => exact trivial
      | live k2 v2 =>
        show probeOk _ j k2
        by_cases hji : j = i
        · rw [hji, getD_set_self _ _ _ hil] at hslot2
          obtain ⟨rfl, rfl⟩ : k = k2 ∧ v = v2 := by
            cases hslot2; exact ⟨rfl, rfl⟩
          refine ⟨dI, by rw [hlenset]; omega, by rw [hlenset, ← hidI, hji], ?_⟩
          intro j2 hj2
          have hne : (k.hash % t.entries.length + j2) % t.entries.length ≠ i := by
            intro hcontra
            rw [hidI] at hcontra
            exact probe_inj (k.hash % t.entries.length) j2 dI t.entries.length hj2 hdIlt hcontra
          rw [hlenset, getD_set_ne _ _ _ _ (by omega)]
          exact hpathI j2 hj2
        · have hold : ((t.entries.getD j .empty)).holds k2 :=
            (hkeysne j k2 hji).mp ⟨v2, hslot2⟩
          obtain ⟨v3, hv3⟩ := hold
          have hpo := hpi j hjl
          rw [hv3] at hpo
          exact probeOk_mono _ _ hlenset hmono j k2 hpo
    · intro i2 hi2 j2 hj2
      rw [hlenset] at hi2 hj2
      cases hslot2 : (t.entries.set i (Slot.live k v)).getD i2 .empty with
      | empty => exact trivial
      | tomb => exact trivial
      | live k2 v2 =>
        show _ → i2 = j2
        intro hh
        by_cases hii : i2 = i
        · rw [hii, getD_set_self _ _ _ hil] at hslot2
          obtain ⟨rfl, -⟩ : k = k2 ∧ v = v2 := by cases hslot2; exact ⟨rfl, rfl⟩
          rw [hii]
          exact (huniqnew j2 hh).symm
        · by_cases hjj : j2 = i
          · rw [hjj, getD_set_self _ _ _ hil] at hh
            obtain ⟨v4, hv4⟩ := hh
            cases hv4
            exact absurd ((hkeysne i2 k hii).mp ⟨v2, hslot2⟩) (hnotholds i2)
          · have h1 : ((t.entries.getD i2 .empty)).holds k2 :=
              (hkeysne i2 k2 hii).mp ⟨v2, hslot2⟩
            have h2 : ((t.entries.getD j2 .empty)).holds k2 := (hkeysne j2 k2 hjj).mp hh
            exact uniq_holds _ _ hu i2 j2 h1 h2
    · exact liveLookup_unique _ k v i (getD_set_self _ _ _ hil) huniqnew
    · intro m hm
      refine liveLookup_set_untouched _ _ _ _ ?_ ?_
      · intro v2 hv2
        cases hslot with
        | inl he => rw [he] at hv2; cases hv2
        | inr ht => rw [ht] at hv2; cases hv2
      · intro v2 hv2; cases hv2; exact hm rfl
    · exact ⟨fun _ => habsent, fun _ => rfl⟩

theorem getD_mem (es : List Slot) (j : Nat) (hj : j < es.length) :
    es.getD j .empty ∈ es := by
  induction es generalizing j with
  | nil => simp at hj
  | cons a l ih =>
    cases j with
    | zero => rw [getD_cons_zero]; exact List.mem_cons_self a l
    | succ j =>
      rw [getD_cons_succ]
      exact List.mem_cons_of_mem a (ih j (by simpa using hj))

theorem countNonEmpty_zero (es : List Slot) (h : countNonEmpty es = 0) (j : Nat)
    (hj : j < es.length) : es.getD j .empty = .empty := by
  have hall := List.countP_eq_zero.mp h
  have hmem := getD_mem es j hj
  have := hall _ hmem
  cases hx : es.getD j .empty with
  | empty => rfl
  | tomb => rw [hx] at this; simp [nonEmpty_tomb] at this
  | live k v => rw [hx] at this; simp [nonEmpty_live] at this

theorem absent_of_countNonEmpty_zero (es : List Slot) (h : countNonEmpty es = 0)
    (k : ObjString) : ¬ keyPresent es k := by
  intro ⟨j, hj, v, hv⟩
  rw [countNonEmpty_zero es h j hj] at hv
  cases hv

theorem lookup_some_of_present (es : List Slot) (k : ObjString) (hu : uniqKeys es)
    (hp : keyPresent es k) : ∃ v, liveLookup es k = some v := by
  obtain ⟨j, hj, v, hv⟩ := hp
  refine ⟨v, liveLookup_unique es k v j hv ?_⟩
  intro i hi
  exact uniq_holds es k hu i j hi ⟨v, hv⟩

theorem lookup_none_iff_absent (es : List Slot) (k : ObjString) (hu : uniqKeys es) :
    liveLookup es k = none ↔ ¬ keyPresent es k := by
  constructor
  · intro hnone hp
    obtain ⟨v, hv⟩ := lookup_some_of_present es k hu hp
    rw [hv] at hnone
    cases hnone
  · exact liveLookup_absent es k

/-- `tableGet` reads exactly the live contents of a well-formed table. -/
theorem tableGet_spec (t : Table) (k : ObjString) (hwf : wfTable t) :
    tableGet t k = liveLookup t.entries k := by
  cases hwf with
  | inl h0 =>
    obtain ⟨hlen, hcnt⟩ := h0
    rw [List.length_eq_zero] at hlen
    rw [hlen]
    unfold tableGet
    rw [if_pos hcnt]
    rfl
  | inr hp =>
    obtain ⟨hpos, hcount, hlt, hpi, hu⟩ := hp
    unfold tableGet
    by_cases hc0 : t.count = 0
    · rw [if_pos hc0]
      rw [liveLookup_absent t.entries k
        (absent_of_countNonEmpty_zero t.entries (by omega) k)]
    · rw [if_neg hc0]
      by_cases hpres : keyPresent t.entries k
      · obtain ⟨i, v, hres, hslot⟩ := findEntry_complete t.entries k hpi hpres
        rw [hres]
        show (match t.entries.getD i Slot.empty with
          | Slot.live _ v => some v
          | _ => none) = liveLookup t.entries k
        rw [hslot]
        exact (liveLookup_unique t.entries k v i hslot (fun i2 hi2 =>
          uniq_holds t.entries k hu i2 i hi2 ⟨v, hslot⟩)).symm
      · rw [liveLookup_absent t.entries k hpres]
        cases hfe : findEntry t.entries k with
        | none => rfl
        | some r =>
          obtain ⟨i, b⟩ := r
          cases b with
          | true =>
            obtain ⟨v, hslot⟩ := findEntry_found t.entries k i hfe
            exact absurd ⟨i, holds_lt_length _ _ _ ⟨v, hslot⟩, v, hslot⟩ hpres
          | false => rfl

/-! ### Rehashing (`adjustCapacity`) and the full `tableSet`/`tableDelete` -/

theorem liveCount_cons_live (k : ObjString) (v : Value) (l : List Slot) :
    liveCount (Slot.live k v :: l) = liveCount l + 1 := by
  simp [liveCount, List.countP_cons, Slot.isLive]

theorem liveCount_cons_notlive (s : Slot) (l : List Slot) (h : s.isLive = false) :
    liveCount (s :: l) = liveCount l := by
  simp [liveCount, List.countP_cons, h]

theorem liveCount_le_countNonEmpty (l : List Slot) : liveCount l ≤ countNonEmpty l := by
  unfold liveCount countNonEmpty
  refine List.countP_mono_left ?_
  intro s _ h
  cases s with
  | empty => simp [Slot.isLive] at h
  | tomb => rfl
  | live k v => rfl

theorem uniq_pairwise (es : List Slot) (hu : uniqKeys es) :
    List.Pairwise (fun s1 s2 => ∀ k2, s1.holds k2 → ¬ s2.holds k2) es := by
  rw [List.pairwise_iff_get]
  intro i j hij k2 h1 h2
  have hgi : es.getD i .empty = es.get i := by
    rw [List.getD_eq_getElem?_getD, List.getElem?_eq_getElem i.isLt]
    rfl
  have hgj : es.getD j .empty = es.get j := by
    rw [List.getD_eq_getElem?_getD, List.getElem?_eq_getElem j.isLt]
    rfl
  have := uniq_holds es k2 hu i j (by rw [hgi]; exact h1) (by rw [hgj]; exact h2)
  omega

theorem foldIns_spec (src : List Slot) :
    ∀ (acc : Table),
      0 < acc.entries.length →
      acc.count = countNonEmpty acc.entries →
      probeInvariant acc.entries →
      uniqKeys acc.entries →
      acc.count + liveCount src < acc.entries.length →
      List.Pairwise (fun s1 s2 => ∀ k2, s1.holds k2 → ¬ s2.holds k2) src →
      (src.foldl (fun acc s => match s with
        | .live k v => (tableSetRaw acc k v).1
        | _ => acc) acc).entries.length = acc.entries.length ∧
      (src.foldl (fun acc s => match s with
        | .live k v => (tableSetRaw acc k v).1
        | _ => acc) acc).count
        = countNonEmpty (src.foldl (fun acc s => match s with
            | .live k v => (tableSetRaw acc k v).1
            | _ => acc) acc).entries ∧
      (src.foldl (fun acc s => match s with
        | .live k v => (tableSetRaw acc k v).1
        | _ => acc) acc).count ≤ acc.count + liveCount src ∧
      probeInvariant (src.foldl (fun acc s => match s with
        | .live k v => (tableSetRaw acc k v).1
        | _ => acc) acc).entries ∧
      uniqKeys (src.foldl (fun acc s => match s with
        | .live k v => (tableSetRaw acc k v).1
        | _ => acc) acc).entries ∧
      (∀ m, liveLookup (src.foldl (fun acc s => match s with
        | .live k v => (tableSetRaw acc k v).1
        | _ => acc) acc).entries m
          = (liveLookup src m).orElse (fun _ => liveLookup acc.entries m)) := by
  induction src with
  | nil =>
    intro acc hpos hcount hpi hu hcap _
    refine ⟨rfl, hcount, by simpa [liveCount] using Nat.le_refl _, hpi, hu, ?_⟩
    intro m
    rw [liveLookup_nil]
    rfl
  | cons s rest ih =>
    intro acc hpos hcount hpi hu hcap hpw
    have hpwrest : List.Pairwise (fun s1 s2 => ∀ k2, s1.holds k2 → ¬ s2.holds k2) rest :=
      (List.pairwise_cons.mp hpw).2
    have hhead := (List.pairwise_cons.mp hpw).1
    cases s with
    | empty =>
      simp only [List.foldl_cons]
      have hlc : liveCount (Slot.empty :: rest) = liveCount rest :=
        liveCount_cons_notlive _ _ rfl
      have := ih acc hpos hcount hpi hu (by rw [hlc] at hcap; exact hcap) hpwrest
      obtain ⟨h1, h2, h3, h4, h5, h6⟩ := this
      refine ⟨h1, h2, by rw [hlc]; exact h3, h4, h5, ?_⟩
      intro m
      rw [show liveLookup (Slot.empty :: rest) m = liveLookup rest m from by
        rw [liveLookup_cons, slotMatchVal_none _ _ (fun v h => by cases h)]
        rfl]
      exact h6 m
    | tomb =>
      simp only [List.foldl_cons]
      have hlc : liveCount (Slot.tomb :: rest) = liveCount rest :=
        liveCount_cons_notlive _ _ rfl
      have := ih acc hpos hcount hpi hu (by rw [hlc] at hcap; exact hcap) hpwrest
      obtain ⟨h1, h2, h3, h4, h5, h6⟩ := this
      refine ⟨h1, h2, by rw [hlc]; exact h3, h4, h5, ?_⟩
      intro m
      rw [show liveLookup (Slot.tomb :: rest) m = liveLookup rest m from by
        rw [liveLookup_cons, slotMatchVal_none _ _ (fun v h => by cases h)]
        rfl]
      exact h6 m
    | live k v =>
      simp only [List.foldl_cons]
      have hlc : liveCount (Slot.live k v :: rest) = liveCount rest + 1 :=
        liveCount_cons_live k v rest
      have hroom : acc.count + 1 < acc.entries.length := by
        rw [hlc] at hcap
        omega
      have hsr := tableSetRaw_spec acc k v hpos hcount hroom hpi hu
      obtain ⟨hs1, hs2, hs3, hs4, hs5, hs6, hs7, hs8⟩ := hsr
      have hcap2 : (tableSetRaw acc k v).1.count + liveCount rest
          < (tableSetRaw acc k v).1.entries.length := by
        rw [hs1]
        rw [hlc] at hcap
        omega
      have := ih (tableSetRaw acc k v).1 (by rw [hs1]; exact hpos) hs2 hs4 hs5 hcap2 hpwrest
      obtain ⟨h1, h2, h3, h4, h5, h6⟩ := this
      have hrestabsent : ¬ keyPresent rest k := by
        intro ⟨j, hj, v2, hv2⟩
        have hmem := getD_mem rest j hj
        rw [hv2] at hmem
        exact hhead _ hmem k ⟨v, rfl⟩ ⟨v2, rfl⟩
      refine ⟨by rw [h1, hs1], h2, by rw [hlc]; omega, h4, h5, ?_⟩
      intro m
      rw [h6 m, liveLookup_cons]
      by_cases hmk : m = k
      · rw [hmk]
        rw [liveLookup_absent rest k hrestabsent, hs6]
        simp [slotMatchVal]
      · rw [hs7 m hmk]
        have hkm : ¬ k = m := fun h => hmk h.symm
        have : slotMatchVal (Slot.live k v) m = none := by
          simp [slotMatchVal, hkm]
        rw [this]
        rfl

/-- `adjustCapacity` rehashes a well-formed table into a larger fresh
array: the live contents are unchanged, tombstones are dropped, and the
count shrinks to the number of live entries. -/
theorem adjustCapacity_spec (t : Table) (newCap : Nat)
    (hpos : 0 < t.entries.length)
    (hcount : t.count = countNonEmpty t.entries)
    (hlt : t.count < t.entries.length)
    (hpi : probeInvariant t.entries) (hu : uniqKeys t.entries)
    (hgrow : t.entries.length < newCap) :
    (adjustCapacity t newCap).entries.length = newCap ∧
    (adjustCapacity t newCap).count = countNonEmpty (adjustCapacity t newCap).entries ∧
    (adjustCapacity t newCap).count ≤ t.count ∧
    probeInvariant (adjustCapacity t newCap).entries ∧
    uniqKeys (adjustCapacity t newCap).entries ∧
    (∀ m, liveLookup (adjustCapacity t newCap).entries m = liveLookup t.entries m) := by
  have hrep : (List.replicate newCap Slot.empty).length = newCap := by simp
  have hbase0 : countNonEmpty (List.replicate newCap Slot.empty) = 0 := by
    unfold countNonEmpty
    rw [List.countP_eq_zero]
    intro a ha
    rw [List.eq_of_mem_replicate ha]
    simp [nonEmpty_empty]
  have hbasepi : probeInvariant (List.replicate newCap Slot.empty) := by
    intro i hi
    rw [hrep] at hi
    rw [show (List.replicate newCap Slot.empty).getD i .empty = .empty from by
      rw [List.getD_eq_getElem?_getD, List.getElem?_replicate]
      simp [hi]]
    exact trivial
  have hbaseu : uniqKeys (List.replicate newCap Slot.empty) := by
    intro i hi j hj
    rw [hrep] at hi
    rw [show (List.replicate newCap Slot.empty).getD i .empty = .empty from by
      rw [List.getD_eq_getElem?_getD, List.getElem?_replicate]
      simp [hi]]
    exact trivial
  have hlive : liveCount t.entries ≤ countNonEmpty t.entries :=
    liveCount_le_countNonEmpty t.entries
  have hfold := foldIns_spec t.entries ⟨0, List.replicate newCap Slot.empty⟩
    (by show 0 < (List.replicate newCap Slot.empty).length; rw [hrep]; omega)
    hbase0.symm hbasepi hbaseu
    (by show 0 + liveCount t.entries < (List.replicate newCap Slot.empty).length
        rw [hrep]
        omega)
    (uniq_pairwise t.entries hu)
  obtain ⟨h1, h2, h3, h4, h5, h6⟩ := hfold
  have hadj : adjustCapacity t newCap
      = t.entries.foldl (fun acc s => match s with
          | .live k v => (tableSetRaw acc k v).1
          | _ => acc) ⟨0, List.replicate newCap Slot.empty⟩ := rfl
  rw [hadj]
  have hg : (⟨0, List.replicate newCap Slot.empty⟩ : Table).count = 0 := rfl
  refine ⟨by rw [h1, hrep], h2, by rw [hg] at h3; omega, h4, h5, ?_⟩
  intro m
  rw [h6 m]
  cases hx : liveLookup t.entries m with
  | none =>
    exact liveLookup_absent _ m (absent_of_countNonEmpty_zero _ hbase0 m)
  | some v => rfl

theorem three_quarters_lt (c : Nat) (hc : 0 < c) : c * 3 / 4 < c := by
  have h : c * 3 < 4 * c := by omega
  exact Nat.div_lt_of_lt_mul h

theorem growCapacity_gt (c : Nat) : c < growCapacity c := by
  unfold growCapacity
  by_cases h : c < 8
  · rw [if_pos h]; omega
  · rw [if_neg h]; omega

/-- Full behavioural specification of `tableSet` on a well-formed table:
the result is well-formed, holds `v` under `k`, leaves every other key
unchanged, and the returned `isNewKey` flag says whether `k` was absent. -/
theorem tableSet_spec (t : Table) (k : ObjString) (v : Value) (hwf : wfTable t) :
    wfTable (tableSet t k v).1 ∧
    liveLookup (tableSet t k v).1.entries k = some v ∧
    (∀ m, m ≠ k → liveLookup (tableSet t k v).1.entries m = liveLookup t.entries m) ∧
    ((tableSet t k v).2 = true ↔ liveLookup t.entries k = none) := by
  by_cases hgrow : t.count + 1 > t.entries.length * 3 / 4
  · -- growth path: rehash into a bigger array, then place the pair
    have hcomp : ∀ (x : Table), 0 < x.entries.length → x.count = countNonEmpty x.entries →
        x.count < x.entries.length → probeInvariant x.entries → uniqKeys x.entries →
        (∀ m, liveLookup x.entries m = liveLookup t.entries m) →
        x.count + 1 < x.entries.length →
        wfTable (tableSetRaw x k v).1 ∧
        liveLookup (tableSetRaw x k v).1.entries k = some v ∧
        (∀ m, m ≠ k → liveLookup (tableSetRaw x k v).1.entries m = liveLookup t.entries m) ∧
        ((tableSetRaw x k v).2 = true ↔ liveLookup t.entries k = none) := by
      intro x hpos hcount hlt hpi hu hsame hroom
      obtain ⟨hs1, hs2, hs3, hs4, hs5, hs6, hs7, hs8⟩ :=
        tableSetRaw_spec x k v hpos hcount hroom hpi hu
      refine ⟨Or.inr ⟨by omega, hs2, by omega, hs4, hs5⟩, hs6, ?_, ?_⟩
      · intro m hm
        rw [hs7 m hm, hsame m]
      · rw [hs8, ← lookup_none_iff_absent x.entries k hu, hsame k]
    cases hwf with
    | inl h0 =>
      obtain ⟨hlen, hcnt⟩ := h0
      rw [List.length_eq_zero] at hlen
      -- capacity zero: `adjustCapacity` folds over no entries
      have hset : tableSet t k v = tableSetRaw
          (⟨0, List.replicate (growCapacity t.entries.length) Slot.empty⟩) k v := by
        unfold tableSet
        rw [if_pos hgrow]
        unfold adjustCapacity
        rw [hlen]
        rfl
      have hrep : (List.replicate (growCapacity t.entries.length) Slot.empty).length
          = growCapacity t.entries.length := by simp
      have hbase0 : countNonEmpty
          (List.replicate (growCapacity t.entries.length) Slot.empty) = 0 := by
        unfold countNonEmpty
        rw [List.countP_eq_zero]
        intro a ha
        rw [List.eq_of_mem_replicate ha]
        simp [nonEmpty_empty]
      have habs : ∀ m, liveLookup
          (List.replicate (growCapacity t.entries.length) Slot.empty) m = none := by
        intro m
        exact liveLookup_absent _ m (absent_of_countNonEmpty_zero _ hbase0 m)
      have hcap8 : growCapacity t.entries.length = 8 := by
        rw [hlen]
        rfl
      have hsame : ∀ m, liveLookup
          (List.replicate (growCapacity t.entries.length) Slot.empty) m
          = liveLookup t.entries m := by
        intro m
        rw [habs m, hlen]
        rfl
      rw [hset]
      refine hcomp ⟨0, List.replicate (growCapacity t.entries.length) Slot.empty⟩
        (by rw [hrep]; omega) (by exact hbase0.symm) ?_ ?_ ?_ hsame ?_
      · show (0:Nat) < _
        rw [hrep, hcap8]; omega
      · intro i hi
        rw [show (List.replicate (growCapacity t.entries.length) Slot.empty).getD i .empty
            = .empty from by
          rw [List.getD_eq_getElem?_getD, List.getElem?_replicate]
          rw [hrep] at hi
          simp [hi]]
        exact trivial
      · intro i hi j hj
        rw [show (List.replicate (growCapacity t.entries.length) Slot.empty).getD i .empty
            = .empty from by
          rw [List.getD_eq_getElem?_getD, List.getElem?_replicate]
          rw [hrep] at hi
          simp [hi]]
        exact trivial
      · show (0:Nat) + 1 < _
        rw [hrep, hcap8]; omega
    | inr hp =>
      obtain ⟨hpos, hcount, hlt, hpi, hu⟩ := hp
      have hadj := adjustCapacity_spec t (growCapacity t.entries.length)
        hpos hcount hlt hpi hu (growCapacity_gt t.entries.length)
      obtain ⟨ha1, ha2, ha3, ha4, ha5, ha6⟩ := hadj
      have hset : tableSet t k v
          = tableSetRaw (adjustCapacity t (growCapacity t.entries.length)) k v := by
        unfold tableSet
        rw [if_pos hgrow]
      rw [hset]
      refine hcomp _ (by rw [ha1]; have := growCapacity_gt t.entries.length; omega)
        ha2 ?_ ha4 ha5 ha6 ?_
      · rw [ha1]
        have := growCapacity_gt t.entries.length
        omega
      · rw [ha1]
        have := growCapacity_gt t.entries.length
        omega
  · -- no growth: the load factor admits the new entry directly
    have hset : tableSet t k v = tableSetRaw t k v := by
      unfold tableSet
      rw [if_neg hgrow]
    have hpos : 0 < t.entries.length := by
      by_contra h0
      have : t.entries.length = 0 := by omega
      rw [this] at hgrow
      simp at hgrow
    cases hwf with
    | inl h0 => omega
    | inr hp =>
      obtain ⟨_, hcount, hlt, hpi, hu⟩ := hp
      have hroom : t.count + 1 < t.entries.length := by
        have := three_quarters_lt t.entries.length hpos
        omega
      obtain ⟨hs1, hs2, hs3, hs4, hs5, hs6, hs7, hs8⟩ :=
        tableSetRaw_spec t k v hpos hcount hroom hpi hu
      rw [hset]
      refine ⟨Or.inr ⟨by omega, hs2, by omega, hs4, hs5⟩, hs6, hs7, ?_⟩
      rw [hs8, ← lookup_none_iff_absent t.entries k hu]

/-- Full behavioural specification of `tableDelete` on a well-formed
table: the key is gone afterwards, nothing else changes, and the flag
reports whether the key was present. -/
theorem tableDelete_spec (t : Table) (k : ObjString) (hwf : wfTable t) :
    wfTable (tableDelete t k).1 ∧
    liveLookup (tableDelete t k).1.entries k = none ∧
    (∀ m, m ≠ k → liveLookup (tableDelete t k).1.entries m = liveLookup t.entries m) ∧
    ((tableDelete t k).2 = true ↔ liveLookup t.entries k ≠ none) := by
  by_cases hc0 : t.count = 0
  · have hset : tableDelete t k = (t, false) := by
      unfold tableDelete
      rw [if_pos hc0]
    have hnone : liveLookup t.entries k = none := by
      cases hwf with
      | inl h0 =>
        obtain ⟨hlen, -⟩ := h0
        rw [List.length_eq_zero] at hlen
        rw [hlen]
        rfl
      | inr hp =>
        obtain ⟨-, hcount, -, -, -⟩ := hp
        exact liveLookup_absent _ _ (absent_of_countNonEmpty_zero _ (by omega) _)
    rw [hset]
    exact ⟨hwf, hnone, fun m _ => rfl, by simp [hnone]⟩
  · have hposwf : 0 < t.entries.length ∧ t.count = countNonEmpty t.entries ∧
        t.count < t.entries.length ∧ probeInvariant t.entries ∧ uniqKeys t.entries := by
      cases hwf with
      | inl h0 => omega
      | inr hp => exact hp
    obtain ⟨hpos, hcount, hlt, hpi, hu⟩ := hposwf
    by_cases hpres : keyPresent t.entries k
    · obtain ⟨i, v, hres, hslot⟩ := findEntry_complete t.entries k hpi hpres
      have hil : i < t.entries.length := findEntry_i_lt _ _ _ _ hres
      have hset : tableDelete t k = (⟨t.count, t.entries.set i Slot.tomb⟩, true) := by
        unfold tableDelete
        rw [if_neg hc0, hres]
      have hlenset : (t.entries.set i Slot.tomb).length = t.entries.length := by simp
      have hmono : ∀ j, ((t.entries.getD j .empty)).nonEmpty →
          (((t.entries.set i Slot.tomb).getD j .empty)).nonEmpty := by
        intro j _
        by_cases hji : j = i
        · rw [hji, getD_set_self _ _ _ hil]; rfl
        · rwa [getD_set_ne _ _ _ _ (by omega)]
      have hkeysne : ∀ j k2, j ≠ i →
          ((((t.entries.set i Slot.tomb).getD j .empty)).holds k2 ↔
            ((t.entries.getD j .empty)).holds k2) := by
        intro j k2 hji
        rw [getD_set_ne _ _ _ _ (by omega)]
      have hsome : liveLookup t.entries k = some v :=
        liveLookup_unique t.entries k v i hslot (fun i2 hi2 =>
          uniq_holds t.entries k hu i2 i hi2 ⟨v, hslot⟩)
      rw [hset]
      refine ⟨Or.inr ⟨by rw [hlenset]; omega, ?_,
        by show t.count < (t.entries.set i Slot.tomb).length; rw [hlenset]; omega, ?_, ?_⟩,
        ?_, ?_, by simp [hsome]⟩
      · show t.count = countNonEmpty (t.entries.set i Slot.tomb)
        have hcs := countNonEmpty_set t.entries i Slot.tomb hil
        rw [hslot, nonEmpty_live, nonEmpty_tomb, if_pos rfl] at hcs
        omega
      · intro j hjl
        rw [hlenset] at hjl
        cases hslot2 : (t.entries.set i Slot.tomb).getD j .empty with
        | empty => exact trivial
        | tomb => exact trivial
        | live k2 v2 =>
          show probeOk _ j k2
          have hji : j ≠ i := by
            intro hji
            rw [hji, getD_set_self _ _ _ hil] at hslot2
            cases hslot2
          have hold : ((t.entries.getD j .empty)).holds k2 :=
            (hkeysne j k2 hji).mp ⟨v2, hslot2⟩
          obtain ⟨v3, hv3⟩ := hold
          have hpo := hpi j hjl
          rw [hv3] at hpo
          exact probeOk_mono _ _ hlenset hmono j k2 hpo
      · intro i2 hi2 j2 hj2
        rw [hlenset] at hi2 hj2
        cases hslot2 : (t.entries.set i Slot.tomb).getD i2 .empty with
        | empty => exact trivial
        | tomb => exact trivial
        | live k2 v2 =>
          show _ → i2 = j2
          intro hh
          have hii : i2 ≠ i := by
            intro hii
            rw [hii, getD_set_self _ _ _ hil] at hslot2
            cases hslot2
          have hjj : j2 ≠ i := by
            intro hjj
            rw [hjj, getD_set_self _ _ _ hil] at hh
            obtain ⟨v4, hv4⟩ := hh
            cases hv4
          exact uniq_holds _ _ hu i2 j2
            ((hkeysne i2 k2 hii).mp ⟨v2, hslot2⟩) ((hkeysne j2 k2 hjj).mp hh)
      · refine liveLookup_absent _ _ ?_
        intro ⟨j, hj, v2, hv2⟩
        by_cases hji : j = i
        · rw [hji, getD_set_self _ _ _ hil] at hv2
          cases hv2
        · have := uniq_holds _ _ hu j i ((hkeysne j k hji).mp ⟨v2, hv2⟩) ⟨v, hslot⟩
          exact hji this
      · intro m hm
        refine liveLookup_set_untouched _ _ _ _ ?_ ?_
        · intro v2 hv2
          rw [hslot] at hv2
          cases hv2
          exact hm rfl
        · intro v2 hv2; cases hv2
    · have hnone : liveLookup t.entries k = none := liveLookup_absent _ _ hpres
      have hset : tableDelete t k = (t, false) := by
        unfold tableDelete
        rw [if_neg hc0]
        cases hfe : findEntry t.entries k with
        | none => rfl
        | some r =>
          obtain ⟨i, b⟩ := r
          cases b with
          | true =>
            obtain ⟨v, hslot⟩ := findEntry_found t.entries k i hfe
            exact absurd ⟨i, holds_lt_length _ _ _ ⟨v, hslot⟩, v, hslot⟩ hpres
          | false => rfl
      rw [hset]
      exact ⟨hwf, hnone, fun m _ => rfl, by simp [hnone]⟩

/-! ### Byte-wise lookup in the intern table -/

theorem findStringGo_sound (es : List Slot) (chars : List Nat) (hh : Nat) :
    ∀ fuel idx s, findStringGo es chars hh fuel idx = some s →
      (∃ i < es.length, (es.getD i .empty).holds s) ∧ s.chars = chars ∧ s.hash = hh := by
  intro fuel
  induction fuel with
  | zero => intro idx s hres; simp [findStringGo] at hres
  | succ fuel ih =>
    intro idx s hres
    cases heq : es.getD idx .empty with
    | empty =>
      simp only [findStringGo, heq] at hres
      exact Option.noConfusion hres
    | tomb =>
      simp only [findStringGo, heq] at hres
      exact ih _ _ hres
    | live k2 v2 =>
      simp only [findStringGo, heq] at hres
      by_cases hc : k2.chars.length = chars.length ∧ k2.hash = hh ∧ k2.chars = chars
      · rw [if_pos hc] at hres
        cases hres
        have hidx : idx < es.length := holds_lt_length es idx s ⟨v2, heq⟩
        exact ⟨⟨idx, hidx, v2, heq⟩, hc.2.2, hc.2.1⟩
      · rw [if_neg hc] at hres
        exact ih _ _ hres

theorem findStringGo_reach (es : List Slot) (chars : List Nat) (hh : Nat)
    (k : ObjString) (v : Value) :
    ∀ r fuel s,
      es.getD ((hh % es.length + (s + r)) % es.length) .empty = .live k v →
      k.chars = chars → k.hash = hh →
      (∀ j < r, (es.getD ((hh % es.length + (s + j)) % es.length) .empty).nonEmpty) →
      r < fuel →
      ∃ s2, findStringGo es chars hh fuel ((hh % es.length + s) % es.length) = some s2 := by
  intro r
  induction r with
  | zero =>
    intro fuel s htgt hchars hhash _ hfuel
    obtain ⟨fuel, rfl⟩ : ∃ f, fuel = f + 1 := ⟨fuel - 1, by omega⟩
    rw [show s + 0 = s from rfl] at htgt
    refine ⟨k, ?_⟩
    simp only [findStringGo, htgt]
    rw [if_pos ⟨by rw [hchars], hhash, hchars⟩]
  | succ r ih =>
    intro fuel s htgt hchars hhash hpath hfuel
    obtain ⟨fuel, rfl⟩ : ∃ f, fuel = f + 1 := ⟨fuel - 1, by omega⟩
    have hstep : ((hh % es.length + s) % es.length + 1) % es.length
        = (hh % es.length + (s + 1)) % es.length := by
      rw [mod_probe_step, ← Nat.add_assoc]
    have h0 : (es.getD ((hh % es.length + (s + 0)) % es.length) .empty).nonEmpty :=
      hpath 0 (by omega)
    rw [show s + 0 = s from rfl] at h0
    cases heq : es.getD ((hh % es.length + s) % es.length) .empty with
    | empty => rw [heq] at h0; cases h0
    | tomb =>
      have hrec := ih fuel (s + 1)
        (by rw [show s + 1 + r = s + (r + 1) from by omega]; exact htgt)
        hchars hhash
        (by intro j hj
            rw [show s + 1 + j = s + (j + 1) from by omega]
            exact hpath (j + 1) (by omega))
        (by omega)
      obtain ⟨s2, hres⟩ := hrec
      refine ⟨s2, ?_⟩
      simp only [findStringGo, heq]
      rw [hstep]
      exact hres
    | live k2 v2 =>
      by_cases hc : k2.chars.length = chars.length ∧ k2.hash = hh ∧ k2.chars = chars
      · refine ⟨k2, ?_⟩
        simp only [findStringGo, heq]
        rw [if_pos hc]
      · have hrec := ih fuel (s + 1)
          (by rw [show s + 1 + r = s + (r + 1) from by omega]; exact htgt)
          hchars hhash
          (by intro j hj
              rw [show s + 1 + j = s + (j + 1) from by omega]
              exact hpath (j + 1) (by omega))
          (by omega)
        obtain ⟨s2, hres⟩ := hrec
        refine ⟨s2, ?_⟩
        simp only [findStringGo, heq]
        rw [if_neg hc, hstep]
        exact hres

theorem tableFindString_sound (t : Table) (chars : List Nat) (hh : Nat) (s : ObjString)
    (hres : tableFindString t chars hh = some s) :
    (∃ i < t.entries.length, (t.entries.getD i .empty).holds s)
      ∧ s.chars = chars ∧ s.hash = hh := by
  unfold tableFindString at hres
  by_cases hc0 : t.count = 0
  · rw [if_pos hc0] at hres; cases hres
  · rw [if_neg hc0] at hres
    by_cases hl0 : t.entries.length = 0
    · rw [if_pos hl0] at hres; cases hres
    · rw [if_neg hl0] at hres
      exact findStringGo_sound t.entries chars hh _ _ s hres

theorem tableFindString_complete (t : Table) (chars : List Nat)
    (hcount : t.count = countNonEmpty t.entries) (hpi : probeInvariant t.entries)
    (j : Nat) (k : ObjString) (v : Value)
    (hj : t.entries.getD j .empty = .live k v)
    (hchars : k.chars = chars) (hhash : k.hash = hashString chars) :
    ∃ s2, tableFindString t chars (hashString chars) = some s2 := by
  have hjl : j < t.entries.length := holds_lt_length _ _ _ ⟨v, hj⟩
  have hpos : 0 < t.entries.length := by omega
  have hcpos : 0 < countNonEmpty t.entries := by
    unfold countNonEmpty
    rw [List.countP_pos_iff]
    refine ⟨t.entries.getD j .empty, getD_mem _ _ hjl, by rw [hj]; rfl⟩
  have hpo : probeOk t.entries j k := by
    have := hpi j hjl
    rw [hj] at this
    exact this
  obtain ⟨d, hd, hjd, hpath⟩ := hpo
  have hreach := findStringGo_reach t.entries chars (hashString chars) k v d t.entries.length 0
    (by rw [Nat.zero_add, ← hhash, ← hjd]; exact hj)
    hchars hhash
    (by intro j2 hj2
        rw [Nat.zero_add, ← hhash]
        exact hpath j2 hj2)
    hd
  obtain ⟨s2, hres⟩ := hreach
  refine ⟨s2, ?_⟩
  unfold tableFindString
  rw [if_neg (by omega), if_neg (by omega)]
  rw [show hashString chars % t.entries.length
      = (hashString chars % t.entries.length + 0) % t.entries.length from by
    rw [Nat.add_zero, mod_mod]]
  exact hres

/-! ### Interning specifications (`copyString`/`takeString`) -/

theorem wfIntern_hash (st : Intern) (hwf : wfIntern st) :
    ∀ j k v, st.strings.entries.getD j .empty = .live k v →
      k.hash = hashString k.chars ∧ k.sid < st.nextSid := by
  intro j k v hj
  have hjl : j < st.strings.entries.length := holds_lt_length _ _ _ ⟨v, hj⟩
  have := hwf.2.1 j hjl
  rw [hj] at this
  exact this

theorem wfIntern_bytes (st : Intern) (hwf : wfIntern st) :
    ∀ i j k v k2 v2, st.strings.entries.getD i .empty = .live k v →
      st.strings.entries.getD j .empty = .live k2 v2 →
      k.chars = k2.chars → k = k2 := by
  intro i j k v k2 v2 hi hj hc
  have hil : i < st.strings.entries.length := holds_lt_length _ _ _ ⟨v, hi⟩
  have hjl : j < st.strings.entries.length := holds_lt_length _ _ _ ⟨v2, hj⟩
  have := hwf.2.2 i hil j hjl
  rw [hi, hj] at this
  exact this hc

theorem present_of_lookup_some (es : List Slot) (k : ObjString) (v : Value)
    (h : liveLookup es k = some v) : keyPresent es k := by
  by_contra habs
  rw [liveLookup_absent es k habs] at h
  cases h

/-- If a string with the claimed bytes is interned, the byte-wise lookup
returns exactly that object. -/
theorem internFound_eq (st : Intern) (chars : List Nat) (hwf : wfIntern st)
    (j : Nat) (k : ObjString) (v : Value)
    (hj : st.strings.entries.getD j .empty = .live k v) (hchars : k.chars = chars) :
    tableFindString st.strings chars (hashString chars) = some k := by
  have hjl : j < st.strings.entries.length := holds_lt_length _ _ _ ⟨v, hj⟩
  have hposwf : st.strings.count = countNonEmpty st.strings.entries ∧
      probeInvariant st.strings.entries := by
    cases hwf.1 with
    | inl h0 =>
      obtain ⟨hlen, -⟩ := h0
      omega
    | inr hp => exact ⟨hp.2.1, hp.2.2.2.1⟩
  have hkh : k.hash = hashString chars := by
    have := (wfIntern_hash st hwf j k v hj).1
    rw [this, hchars]
  obtain ⟨s2, hres⟩ := tableFindString_complete st.strings chars hposwf.1 hposwf.2
    j k v hj hchars hkh
  obtain ⟨⟨i, hil, v2, hi⟩, hs2c, -⟩ := tableFindString_sound st.strings chars _ s2 hres
  have : s2 = k := wfIntern_bytes st hwf i j s2 v2 k v hi hj (by rw [hs2c, hchars])
  rw [this] at hres
  exact hres

/-- If no string with these bytes is interned, the byte-wise lookup
fails. -/
theorem internAbsent_eq (st : Intern) (chars : List Nat) (hh : Nat)
    (habs : ¬ bytesInterned st chars) :
    tableFindString st.strings chars hh = none := by
  cases hres : tableFindString st.strings chars hh with
  | none => rfl
  | some s =>
    obtain ⟨⟨i, hil, v, hi⟩, hsc, -⟩ := tableFindString_sound st.strings chars hh s hres
    exact absurd ⟨i, hil, by rw [hi]; exact hsc⟩ habs

/-- Behaviour of `allocateString` on a fresh byte sequence: a new object
at the allocation cursor, interned, the invariants preserved, and no
other object with these bytes. -/
theorem allocateString_spec (st : Intern) (chars : List Nat)
    (hwf : wfIntern st) (habs : ¬ bytesInterned st chars) :
    (allocateString chars (hashString chars) st).1 = ⟨st.nextSid, chars, hashString chars⟩ ∧
    wfIntern (allocateString chars (hashString chars) st).2 ∧
    (∃ j v, (allocateString chars (hashString chars) st).2.strings.entries.getD j .empty
        = .live (allocateString chars (hashString chars) st).1 v) ∧
    (∀ j k2 v2, (allocateString chars (hashString chars) st).2.strings.entries.getD j .empty
          = .live k2 v2 → k2.chars = chars →
        k2 = (allocateString chars (hashString chars) st).1) ∧
    (allocateString chars (hashString chars) st).2.liveBufs = st.liveBufs ∧
    (allocateString chars (hashString chars) st).2.nextSid = st.nextSid + 1 := by
  set s : ObjString := ⟨st.nextSid, chars, hashString chars⟩ with hs
  have hA : allocateString chars (hashString chars) st
      = (s, ⟨(tableSet st.strings s Value.nil).1, st.nextSid + 1, st.liveBufs⟩) := rfl
  rw [hA]
  dsimp only
  obtain ⟨hw1, hw2, hw3, hw4⟩ := tableSet_spec st.strings s Value.nil hwf.1
  have huniq' : uniqKeys (tableSet st.strings s Value.nil).1.entries := by
    cases hw1 with
    | inl h0 =>
      intro i hi j hj
      omega
    | inr hp => exact hp.2.2.2.2
  have hkeycases : ∀ j k v,
      (tableSet st.strings s Value.nil).1.entries.getD j .empty = .live k v →
      k = s ∨ keyPresent st.strings.entries k := by
    intro j k v hj
    by_cases hks : k = s
    · exact Or.inl hks
    · have hjl : j < (tableSet st.strings s Value.nil).1.entries.length :=
        holds_lt_length _ _ _ ⟨v, hj⟩
      obtain ⟨v2, hv2⟩ := lookup_some_of_present _ k huniq' ⟨j, hjl, v, hj⟩
      rw [hw3 k hks] at hv2
      exact Or.inr (present_of_lookup_some _ _ _ hv2)
  refine ⟨rfl, ⟨hw1.elim (fun h => Or.inl h) (fun h => Or.inr h), ?_, ?_⟩, ?_, ?_, rfl, rfl⟩
  · -- hash consistency and address bounds for every key of the new table
    intro i hi
    cases hslot : (tableSet st.strings s Value.nil).1.entries.getD i .empty with
    | empty => exact trivial
    | tomb => exact trivial
    | live k v =>
      show k.hash = hashString k.chars ∧ k.sid < st.nextSid + 1
      rcases hkeycases i k v hslot with rfl | hold
      · exact ⟨by rw [hs], Nat.lt_succ_self st.nextSid⟩
      · obtain ⟨j, hjl, v2, hv2⟩ := hold
        have := wfIntern_hash st hwf j k v2 hv2
        exact ⟨this.1, by omega⟩
  · -- byte uniqueness for the new table
    intro i hi j hj
    cases hslot : (tableSet st.strings s Value.nil).1.entries.getD i .empty with
    | empty => exact trivial
    | tomb => exact trivial
    | live k v =>
      cases hslot2 : (tableSet st.strings s Value.nil).1.entries.getD j .empty with
      | empty => exact trivial
      | tomb => exact trivial
      | live k2 v2 =>
        show k.chars = k2.chars → k = k2
        intro hcc
        rcases hkeycases i k v hslot with rfl | holdk
        · rcases hkeycases j k2 v2 hslot2 with rfl | holdk2
          · rfl
          · obtain ⟨j2, hj2l, v3, hv3⟩ := holdk2
            exact absurd ⟨j2, hj2l, by rw [hv3]; show k2.chars = chars; rw [← hcc]⟩ habs
        · rcases hkeycases j k2 v2 hslot2 with rfl | holdk2
          · obtain ⟨j2, hj2l, v3, hv3⟩ := holdk
            exact absurd ⟨j2, hj2l, by rw [hv3]; show k.chars = chars; rw [hcc]⟩ habs
          · obtain ⟨i2, hi2l, v3, hv3⟩ := holdk
            obtain ⟨j2, hj2l, v4, hv4⟩ := holdk2
            exact wfIntern_bytes st hwf i2 j2 k v3 k2 v4 hv3 hv4 hcc
  · -- the new object is interned
    obtain ⟨j, hjl, v, hv⟩ := present_of_lookup_some _ _ _ hw2
    exact ⟨j, v, hv⟩
  · -- and it is the only object with these bytes
    intro j k2 v2 hj hk2c
    rcases hkeycases j k2 v2 hj with rfl | hold
    · rfl
    · obtain ⟨j2, hj2l, v3, hv3⟩ := hold
      exact absurd ⟨j2, hj2l, by rw [hv3]; exact hk2c⟩ habs

/-! # The claims -/

theorem sweep_freed (objs : List HObj) :
    (sweep objs).2 = objs.filter (fun o => !o.marked) := by
  induction objs with
  | nil => rfl
  | cons o rest ih =>
    cases hm : o.marked with
    | true => simp [sweep, hm, List.filter_cons, ih]
    | false => simp [sweep, hm, List.filter_cons, ih]

theorem sweep_survivors (objs : List HObj) :
    (sweep objs).1 = (objs.filter (fun o => o.marked)).map sweepClear := by
  induction objs with
  | nil => rfl
  | cons o rest ih =>
    cases hm : o.marked with
    | true => simp [sweep, hm, List.filter_cons, ih]
    | false => simp [sweep, hm, List.filter_cons, ih]

/-- C2: amended statement.  After `collectGarbage`'s marking phase, the
weak intern sweep and `sweep` free exactly the unmarked objects and keep
the marked ones in order; every string surviving in the intern table is
marked; but the mark flag of a survivor is cleared only for kinds other
than string and native — a surviving string or native keeps its flag set
(the original claim said every survivor's flag is cleared). -/
theorem c2_collect_garbage (strs : List Nat) (objs : List HObj) :
    (gcFinish strs objs).2.2 = objs.filter (fun o => !o.marked) ∧
    (gcFinish strs objs).2.1 = (objs.filter (fun o => o.marked)).map sweepClear ∧
    (∀ oid ∈ (gcFinish strs objs).1,
      ∃ o, objs.find? (fun o2 => o2.oid = oid) = some o ∧ o.marked = true) ∧
    (∀ o ∈ (gcFinish strs objs).2.1, o.marked = true →
      o.kind = .string ∨ o.kind = .native) := by
  refine ⟨sweep_freed objs, sweep_survivors objs, ?_, ?_⟩
  · intro oid hmem
    have hf : oid ∈ strs.filter (fun oid =>
        ((objs.find? (fun o => o.oid = oid)).map (fun o => o.marked)).getD false) := hmem
    rw [List.mem_filter] at hf
    obtain ⟨-, hpred⟩ := hf
    cases hfind : objs.find? (fun o => o.oid = oid) with
    | none => rw [hfind] at hpred; cases hpred
    | some o =>
      rw [hfind] at hpred
      exact ⟨o, rfl, by simpa using hpred⟩
  · intro o hmem hmark
    rw [show (gcFinish strs objs).2.1 = (sweep objs).1 from rfl,
      sweep_survivors] at hmem
    rw [List.mem_map] at hmem
    obtain ⟨o2, hmem2, rfl⟩ := hmem
    unfold sweepClear at hmark ⊢
    by_cases hk : o2.kind = ObjKind.string ∨ o2.kind = ObjKind.native
    · rw [if_pos hk]
      exact hk
    · rw [if_neg hk] at hmark
      simp at hmark

/-- C2 counterexample: a marked string on the allocation list survives
the collection with its mark flag still set, so "every object that
survives the collection has its marked flag cleared" fails. -/
theorem c2_marked_string_survivor :
    (gcFinish [0] [⟨0, ObjKind.string, true⟩]).2.1 = [⟨0, ObjKind.string, true⟩] ∧
    (gcFinish [0] [⟨0, ObjKind.string, true⟩]).2.1.map HObj.marked = [true] := by
  decide

/-- C3: `push` never rewrites the frame `slots` pointers, so when the
grow path relocates the stack (`moved = true`) a previously valid frame
pointer dangles into the old allocation: the claimed invariant does not
hold. -/
theorem c3_push_keeps_frame_pointers :
    (∀ (moved : Bool) (s : VmStack), (push moved s).frameSlots = s.frameSlots) ∧
    framesValid ⟨0, 8, 8, [⟨0, 0⟩]⟩ ∧
    ¬ framesValid (push true ⟨0, 8, 8, [⟨0, 0⟩]⟩) := by
  refine ⟨?_, by decide, by decide⟩
  intro moved s
  unfold push
  split <;> rfl

/-- C4: amended statement.  `OP_MODULO` errors unless both operands are
numbers; on numbers it pushes the C signed remainder (`Int.tmod`) of the
`roundDouble`-rounded operands; and `roundDouble`, the C cast
`(int)(x + 0.5)`, truncates `x + 0.5` toward zero, which agrees with the
spec's `floor(x + 0.5)` exactly when `x + 0.5` is nonnegative (the
hypothesis `0 ≤ (x.add CNum.half).num` with a positive denominator). -/
theorem c4_modulo_trunc_rounding :
    (∀ a b : Value, (opModulo a b).isSome = true ↔
      ((∃ x, a = Value.num x) ∧ (∃ y, b = Value.num y))) ∧
    (∀ x y : CNum, opModulo (Value.num x) (Value.num y)
      = some (Value.num ⟨(roundDouble x).tmod (roundDouble y), 1⟩)) ∧
    (∀ x : CNum, 0 < x.den → 0 ≤ (x.add CNum.half).num →
      roundDouble x = floorRound x.toRat) := by
  refine ⟨?_, fun x y => rfl, ?_⟩
  · intro a b
    cases a <;> cases b <;> simp [opModulo]
  · intro x hden hnum
    have h1 : roundDouble x = (x.add CNum.half).num / ((x.add CNum.half).den : ℤ) := by
      show (x.add CNum.half).num.tdiv ((x.add CNum.half).den : ℤ) = _
      exact Int.tdiv_eq_ediv hnum (by positivity)
    unfold floorRound
    have hd0 : ((x.den : ℚ)) ≠ 0 := Nat.cast_ne_zero.mpr (by omega)
    have heq : x.toRat + 1/2
        = (((x.add CNum.half).num : ℤ) : ℚ) / (((x.add CNum.half).den : ℕ) : ℚ) := by
      show (x.num : ℚ) / (x.den : ℚ) + 1/2
          = ((x.num * (2 : ℤ) + 1 * (x.den : ℤ) : ℤ) : ℚ) / (((x.den * 2 : ℕ) : ℕ) : ℚ)
      have hd2 : (((x.den * 2 : ℕ) : ℕ) : ℚ) ≠ 0 := Nat.cast_ne_zero.mpr (by omega)
      field_simp
    rw [heq, Rat.floor_intCast_div_natCast, h1]

/-- C4 counterexample: for `a = -1.25`, `b = 2` the code rounds `a` to
`0` (truncation of `-0.75` toward zero) while the spec's
`floor(a + 0.5)` is `-1`, so the pushed remainder `0` differs from the
spec's `-1 % 2 = -1`. -/
theorem c4_floor_round_mismatch :
    opModulo (Value.num ⟨-5, 4⟩) (Value.num ⟨2, 1⟩) = some (Value.num ⟨0, 1⟩) ∧
    roundDouble ⟨-5, 4⟩ = 0 ∧
    floorRound (CNum.toRat ⟨-5, 4⟩) = -1 ∧
    floorRound (CNum.toRat ⟨2, 1⟩) = 2 ∧
    opModulo (Value.num ⟨-5, 4⟩) (Value.num ⟨2, 1⟩)
      ≠ some (Value.num ⟨(floorRound (CNum.toRat ⟨-5, 4⟩)).tmod
          (floorRound (CNum.toRat ⟨2, 1⟩)), 1⟩) := by
  have h1 : floorRound (CNum.toRat ⟨-5, 4⟩) = -1 := by
    show ⌊((-5 : ℤ) : ℚ) / ((4 : ℕ) : ℚ) + 1/2⌋ = -1
    rw [show ((-5 : ℤ) : ℚ) / ((4 : ℕ) : ℚ) + 1/2
        = ((-3 : ℤ) : ℚ) / ((4 : ℕ) : ℚ) from by norm_num,
      Rat.floor_intCast_div_natCast]
    rfl
  have h2 : floorRound (CNum.toRat ⟨2, 1⟩) = 2 := by
    show ⌊((2 : ℤ) : ℚ) / ((1 : ℕ) : ℚ) + 1/2⌋ = 2
    rw [show ((2 : ℤ) : ℚ) / ((1 : ℕ) : ℚ) + 1/2
        = ((5 : ℤ) : ℚ) / ((2 : ℕ) : ℚ) from by norm_num,
      Rat.floor_intCast_div_natCast]
    rfl
  refine ⟨rfl, rfl, h1, h2, ?_⟩
  rw [h1, h2]
  intro hcontra
  have hcomp : opModulo (Value.num ⟨-5, 4⟩) (Value.num ⟨2, 1⟩)
      = some (Value.num ⟨0, 1⟩) := rfl
  rw [hcomp] at hcontra
  injection hcontra with h3
  injection h3 with h4
  injection h4 with h5 h6
  exact absurd h5 (by decide)

/-- C4 witness: at `x = 1.5` the hypotheses of the rounding agreement
hold and truncation equals the floor-based rounding. -/
theorem c4_rounding_witness :
    0 < (⟨3, 2⟩ : CNum).den ∧ 0 ≤ ((⟨3, 2⟩ : CNum).add CNum.half).num ∧
    roundDouble ⟨3, 2⟩ = floorRound (CNum.toRat ⟨3, 2⟩) :=
  ⟨by decide, by decide, c4_modulo_trunc_rounding.2.2 ⟨3, 2⟩ (by decide) (by decide)⟩

/-- C5: `patchJumps` walks the list from the end and stops at the first
depth mismatch, and entries are never removed.  (a) With an outer-loop
break (depth 1, operand at 1) recorded before an inner-loop break
(depth 2, operand at 5), closing the inner loop patches only the inner
entry, and closing the outer loop patches nothing: the outer break's
operand keeps the `0xffff` placeholder.  (b) With two consecutive
same-depth loops, closing the second re-patches the first loop's
already-patched break to the second loop's end. -/
theorem c5_break_patch_demo :
    (patchJumps (List.replicate 12 255) (addJump (addJump [] 1 1) 2 5) 2 8).getD 5 0 = 0 ∧
    (patchJumps (List.replicate 12 255) (addJump (addJump [] 1 1) 2 5) 2 8).getD 6 0 = 1 ∧
    (patchJumps (patchJumps (List.replicate 12 255) (addJump (addJump [] 1 1) 2 5) 2 8)
        (addJump (addJump [] 1 1) 2 5) 1 10).getD 1 0 = 255 ∧
    (patchJumps (patchJumps (List.replicate 12 255) (addJump (addJump [] 1 1) 2 5) 2 8)
        (addJump (addJump [] 1 1) 2 5) 1 10).getD 2 0 = 255 ∧
    (patchJumps (List.replicate 12 255) (addJump [] 1 1) 1 8).getD 2 0 = 5 ∧
    (patchJumps (patchJumps (List.replicate 12 255) (addJump [] 1 1) 1 8)
        (addJump (addJump [] 1 1) 1 5) 1 10).getD 2 0 = 7 := by
  decide

/-- C6: amended statement.  `ternary` emits jump-if-false, pop, parses
the true branch at ternary precedence, consumes the colon, emits the
jump past the else branch, patches, pops, and parses the else branch at
assignment precedence (the spec swaps the two precedences); the
operator is right-associative (`1 ? 2 : 3 ? 4 : 5` compiles exactly as
`1 ? 2 : (3 ? 4 : 5)`), an assignment is rejected in the true branch
but accepted in the else branch, and the emitted code for
`print 1 ? 2 : 3;` is the expected sequence. -/
theorem c6_ternary_compile :
    compileSource 100 ternChainToks = compileSource 100 ternRightToks ∧
    (compileSource 100 ternSimpleToks).map (fun r => r.1)
      = some [OP_CONSTANT, 0, OP_JUMP_IF_FALSE, 0, 6, OP_POP, OP_CONSTANT, 1,
          OP_JUMP, 0, 3, OP_POP, OP_CONSTANT, 2, OP_PRINT, OP_NIL, OP_RETURN] ∧
    compileSource 100 ternAssignTrueToks = none ∧
    (compileSource 100 ternAssignElseToks).isSome = true :=
  ⟨rfl, rfl, rfl, rfl⟩

/-- C6 counterexample: the compilation trace of `ternary` differs from
the trace the specification sentence describes (the branch precedences
are swapped). -/
theorem c6_trace_mismatch : ternaryActions ≠ ternarySpecActions := by decide

/-- C7: amended statement.  The switch program
`var x = 1; switch(x){ case 1: print "one"; fallthrough case 2:
print "two"; default: print "end"; }` interprets successfully and
prints exactly the two lines `one` and `two`: the matched case runs and
`fallthrough` runs the next case body, but that body's closing jump
skips the default body, so `end` is not printed. -/
theorem c7_switch_program_output :
    (interpretSource 100 switchProgramToks).map (List.map printedBytes)
      = some [[111, 110, 101], [116, 119, 111]] := by
  rfl

/-- C7 counterexample: the run does not produce the three claimed lines
`one`, `two`, `end`. -/
theorem c7_no_default_line :
    (interpretSource 100 switchProgramToks).map (List.map printedBytes)
      ≠ some [[111, 110, 101], [116, 119, 111], [101, 110, 100]] := by
  decide

/-- C8: the global-variable opcodes behave as claimed: define stores
unconditionally and is a no-op on other names, get mirrors the lookup
(error exactly on absence), and set fails exactly on an undefined name,
rolling back the auto-inserted entry so the lookup still fails and no
other name is disturbed. -/
theorem c8_global_opcodes (g : Table) (name : ObjString) (v : Value)
    (hwf : wfTable g) : globalsSpec g name v := by
  unfold globalsSpec
  obtain ⟨hw1, hw2, hw3, hw4⟩ := tableSet_spec g name v hwf
  obtain ⟨hd1, hd2, hd3, hd4⟩ := tableDelete_spec (tableSet g name v).1 name hw1
  refine ⟨hw2, hw3, hw1, tableGet_spec g name hwf, ?_, ?_, ?_, ?_⟩
  · constructor
    · intro h
      cases hr : (tableSet g name v).2 with
      | true => exact hw4.mp hr
      | false =>
        have hop : (opSetGlobal g name v).2 = true := by
          simp [opSetGlobal, hr]
        rw [h] at hop
        cases hop
    · intro h
      have hr : (tableSet g name v).2 = true := hw4.mpr h
      show (opSetGlobal g name v).2 = false
      simp [opSetGlobal, hr]
  · intro h
    cases hr : (tableSet g name v).2 with
    | true =>
      have hop : (opSetGlobal g name v).2 = false := by
        simp [opSetGlobal, hr]
      rw [h] at hop
      cases hop
    | false =>
      have hop : (opSetGlobal g name v).1 = (tableSet g name v).1 := by
        simp [opSetGlobal, hr]
      rw [hop]
      exact hw2
  · intro h
    cases hr : (tableSet g name v).2 with
    | false =>
      have hop : (opSetGlobal g name v).2 = true := by
        simp [opSetGlobal, hr]
      rw [h] at hop
      cases hop
    | true =>
      have hop : (opSetGlobal g name v).1 = (tableDelete (tableSet g name v).1 name).1 := by
        simp [opSetGlobal, hr]
      rw [hop]
      exact hd2
  · intro m hm
    cases hr : (tableSet g name v).2 with
    | true =>
      have hop : (opSetGlobal g name v).1 = (tableDelete (tableSet g name v).1 name).1 := by
        simp [opSetGlobal, hr]
      rw [hop, hd3 m hm, hw3 m hm]
    | false =>
      have hop : (opSetGlobal g name v).1 = (tableSet g name v).1 := by
        simp [opSetGlobal, hr]
      rw [hop, hw3 m hm]

/-- C8 witness: the empty globals table is well-formed and the opcode
specification holds on it for the name `"x"`. -/
theorem c8_global_opcodes_witness :
    wfTable initTable ∧ globalsSpec initTable ⟨0, [120], hashString [120]⟩ Value.nil :=
  ⟨by decide, c8_global_opcodes initTable ⟨0, [120], hashString [120]⟩ Value.nil (by decide)⟩

/-- C9: `makeConstant` truncates `addConstant`'s index to 8 bits with no
range check: once the pool holds at least 256 values, the emitted index
is the new index reduced modulo 256, which is strictly below the old
pool size and therefore names an earlier entry. -/
theorem c9_make_constant_truncates (constants : List Value) (v : Value)
    (h : 256 ≤ constants.length) :
    (makeConstant constants v).2 = constants.length % 256 ∧
    (makeConstant constants v).2 < constants.length ∧
    (addConstant constants v).2 = constants.length ∧
    (addConstant constants v).1 = constants ++ [v] := by
  refine ⟨rfl, ?_, rfl, rfl⟩
  show constants.length % 256 < constants.length
  calc constants.length % 256 < 256 := Nat.mod_lt _ (by omega)
  _ ≤ constants.length := h

set_option maxRecDepth 4000 in
/-- C9 witness: a pool of exactly 256 values wraps the next index to 0. -/
theorem c9_truncation_witness :
    256 ≤ (List.replicate 256 Value.nil).length ∧
    ((makeConstant (List.replicate 256 Value.nil) Value.nil).2
        = (List.replicate 256 Value.nil).length % 256 ∧
     (makeConstant (List.replicate 256 Value.nil) Value.nil).2
        < (List.replicate 256 Value.nil).length ∧
     (addConstant (List.replicate 256 Value.nil) Value.nil).2
        = (List.replicate 256 Value.nil).length ∧
     (addConstant (List.replicate 256 Value.nil) Value.nil).1
        = List.replicate 256 Value.nil ++ [Value.nil]) :=
  ⟨by decide, c9_make_constant_truncates (List.replicate 256 Value.nil) Value.nil (by decide)⟩

/-- C1: `copyString` returns the identical interned object on a byte
hit without touching the state; in all cases it consults the table
first, the result is interned with the requested bytes, the intern
invariants survive, and the table holds exactly one string with those
bytes. -/
theorem c1_copy_string_interning (st : Intern) (chars : List Nat)
    (hwf : wfIntern st) : copyStringSpec st chars := by
  unfold copyStringSpec
  by_cases hb : bytesInterned st chars
  · obtain ⟨j0, hj0l, hj0b⟩ := hb
    rcases hslot : st.strings.entries.getD j0 .empty with _ | _ | ⟨k0, v0⟩
    · rw [hslot] at hj0b
      exact hj0b.elim
    · rw [hslot] at hj0b
      exact hj0b.elim
    · rw [hslot] at hj0b
      replace hj0b : k0.chars = chars := hj0b
      have hfind := internFound_eq st chars hwf j0 k0 v0 hslot hj0b
      have hcopy : copyString chars st = (k0, st) := by
        simp only [copyString]
        rw [hfind]
      refine ⟨?_, ?_, ?_, ?_, ?_⟩
      · intro j k v hj hc
        have hkk : k = k0 :=
          wfIntern_bytes st hwf j j0 k v k0 v0 hj hslot (by rw [hc, hj0b])
        rw [hcopy, hkk]
      · rw [hcopy]
        exact hwf
      · rw [hcopy]
        exact ⟨j0, v0, hslot⟩
      · rw [hcopy]
        exact hj0b
      · rw [hcopy]
        intro j k2 v2 hj hc
        exact wfIntern_bytes st hwf j j0 k2 v2 k0 v0 hj hslot (by rw [hc, hj0b])
  · have hfind : tableFindString st.strings chars (hashString chars) = none :=
      internAbsent_eq st chars (hashString chars) hb
    have hcopy : copyString chars st = allocateString chars (hashString chars) st := by
      simp only [copyString]
      rw [hfind]
    obtain ⟨ha1, ha2, ha3, ha4, ha5, ha6⟩ := allocateString_spec st chars hwf hb
    refine ⟨?_, ?_, ?_, ?_, ?_⟩
    · intro j k v hj hc
      exact absurd ⟨j, holds_lt_length _ _ _ ⟨v, hj⟩, by rw [hj]; exact hc⟩ hb
    · rw [hcopy]
      exact ha2
    · rw [hcopy]
      exact ha3
    · rw [hcopy, ha1]
    · rw [hcopy]
      exact ha4

/-- C1 witness: the empty intern state is well-formed and the interning
specification holds on it for the bytes of `"x"`. -/
theorem c1_interning_witness :
    wfIntern ⟨initTable, 0, []⟩ ∧ copyStringSpec ⟨initTable, 0, []⟩ [120] :=
  ⟨by decide, c1_copy_string_interning ⟨initTable, 0, []⟩ [120] (by decide)⟩

/-- C10: `takeString` frees the caller's buffer and returns the
existing object on a byte hit; otherwise it allocates a new string
owning the bytes and interns it; either way the result is interned and
the intern invariants survive. -/
theorem c10_take_string (st : Intern) (bufId : Nat) (chars : List Nat)
    (hwf : wfIntern st) : takeStringSpec st bufId chars := by
  unfold takeStringSpec
  by_cases hb : bytesInterned st chars
  · obtain ⟨j0, hj0l, hj0b⟩ := hb
    rcases hslot : st.strings.entries.getD j0 .empty with _ | _ | ⟨k0, v0⟩
    · rw [hslot] at hj0b
      exact hj0b.elim
    · rw [hslot] at hj0b
      exact hj0b.elim
    · rw [hslot] at hj0b
      replace hj0b : k0.chars = chars := hj0b
      have hfind := internFound_eq st chars hwf j0 k0 v0 hslot hj0b
      have htake : takeString bufId chars st
          = (k0, { st with liveBufs := st.liveBufs.erase bufId }) := by
        simp only [takeString]
        rw [hfind]
      refine ⟨?_, ?_, ?_, ?_⟩
      · intro j k v hj hc
        have hkk : k = k0 :=
          wfIntern_bytes st hwf j j0 k v k0 v0 hj hslot (by rw [hc, hj0b])
        rw [htake, hkk]
      · intro habs
        exact absurd ⟨j0, hj0l, by rw [hslot]; exact hj0b⟩ habs
      · rw [htake]
        exact hwf
      · rw [htake]
        exact ⟨j0, v0, hslot⟩
  · have hfind : tableFindString st.strings chars (hashString chars) = none :=
      internAbsent_eq st chars (hashString chars) hb
    have htake : takeString bufId chars st = allocateString chars (hashString chars) st := by
      simp only [takeString]
      rw [hfind]
    obtain ⟨ha1, ha2, ha3, ha4, ha5, ha6⟩ := allocateString_spec st chars hwf hb
    refine ⟨?_, ?_, ?_, ?_⟩
    · intro j k v hj hc
      exact absurd ⟨j, holds_lt_length _ _ _ ⟨v, hj⟩, by rw [hj]; exact hc⟩ hb
    · intro _
      rw [htake]
      exact ⟨ha1, ha5⟩
    · rw [htake]
      exact ha2
    · rw [htake]
      exact ha3

/-- C10 witness: on the empty intern state (so a miss) the takeString
specification holds for buffer 7 with the bytes of `"x"`. -/
theorem c10_take_string_witness :
    wfIntern ⟨initTable, 0, []⟩ ∧ takeStringSpec ⟨initTable, 0, []⟩ 7 [120] :=
  ⟨by decide, c10_take_string ⟨initTable, 0, []⟩ 7 [120] (by decide)⟩

end CoreLox
